import Mathlib

/-!
# Options pricing: Black-Scholes closed form and Monte Carlo simulation

A shallow embedding of `Binomial-Option-Pricing.cpp` and `Monte-Carlo-Simulation.cpp`.

The analytic pricer is embedded in two readings.

* The exact reading, in the namespace `OptionsPricing`: a C++ `double` is a real number and
  `+ - * /`, `exp`, `log`, `sqrt`, `fabs`, `max` are the exact real operations. Statements in
  this reading are formulas, non-strict ranges, tolerances and enclosures, which the rounding
  of the program moves by a few units in the last place only.
* The binary64 reading, in the namespace `OptionsPricing.Binary64`: the same expressions with
  every arithmetic operation and every library call followed by `roundDouble`, the rounding to
  the nearest number with 53 significant bits, ties to even. The exponent range is unbounded
  (overflow, underflow, infinities and NaN are outside the model) and `exp`, `log`, `sqrt` are
  taken as correctly rounded. This reading decides what rounding can overturn: a value of the
  distribution function that is exactly `0` or `1`, the sign of a difference of nearly equal
  terms, a divisor that is zero.

Further conventions:

* the `int` obtained from a `double` is the binary64 value with its fractional part discarded;
  a value outside the 32-bit range has no conversion;
* the process-wide random generator is an explicit state: the stream of standard-normal
  variates that it is going to hand out, consumed one per call.
-/

namespace OptionsPricing

noncomputable section

/-! ## Rounding to binary64 -/

/-- Round to the nearest integer, ties to the even one. -/
def roundNearestEven (y : ℝ) : ℤ :=
  if Int.fract y < 1 / 2 then ⌊y⌋
  else if 1 / 2 < Int.fract y then ⌊y⌋ + 1
  else if Even ⌊y⌋ then ⌊y⌋ else ⌊y⌋ + 1

/-- Spacing of the binary64 numbers in the binade of `x`: `2 ^ (e - 52)` for
`2 ^ e ≤ |x| < 2 ^ (e + 1)`. -/
def ulp (x : ℝ) : ℝ :=
  (2 : ℝ) ^ (Int.log 2 |x| - 52)

/-- Rounding of a real to binary64, to nearest with ties to even: 53 significant bits, the
exponent range taken as unbounded (no overflow, no underflow). -/
def roundDouble (x : ℝ) : ℝ :=
  (roundNearestEven (x / ulp x) : ℝ) * ulp x

/-! ## `Binomial-Option-Pricing.cpp` -/

/-- Output record of the analytic pricer (`struct Contract`). -/
structure Contract where
  premium : ℝ
  dte : Option ℤ
  delta : ℝ
  gamma : ℝ
  theta : ℝ
  vega : ℝ
  rho : ℝ
  implied_volatility : ℝ
  intrinsic_value : ℝ

/-- First coefficient of the polynomial in `erf`. -/
def A1 : ℝ := 0.254829592
/-- Second coefficient of the polynomial in `erf`. -/
def A2 : ℝ := -0.284496736
/-- Third coefficient of the polynomial in `erf`. -/
def A3 : ℝ := 1.421413741
/-- Fourth coefficient of the polynomial in `erf`. -/
def A4 : ℝ := -1.453152027
/-- Fifth coefficient of the polynomial in `erf`. -/
def A5 : ℝ := 1.061405429
/-- Scale of the argument in `erf`. -/
def P : ℝ := 0.3275911

/-- The function `erf` of the source: sign of the argument times the rational-exponential
approximation evaluated at the absolute value. -/
def erf (value : ℝ) : ℝ :=
  let sign : ℝ := if value ≥ 0 then 1 else -1
  let value := |value|
  let t := 1 / (1 + P * value)
  let y := 1 - (((((A5 * t + A4) * t + A3) * t + A2) * t + A1) * t * Real.exp (-value * value))
  sign * y

/-- The function `cumulativeStandardNormal` of the source. -/
def cumulativeStandardNormal (value : ℝ) : ℝ :=
  0.5 * (1 + erf (value / Real.sqrt 2))

/-- Conversion of a `double` to `int` as in `int daysToExpiry = timeToMaturity * 365.2425;`:
the fractional part is discarded (truncation toward zero). The result is an `int` of 32 bits;
a value outside its range has no defined conversion in C++ and none here. -/
def truncateToInt (x : ℝ) : Option ℤ :=
  let n : ℤ := if 0 ≤ x then ⌊x⌋ else ⌈x⌉
  if -2147483648 ≤ n ∧ n ≤ 2147483647 then some n else none

/-- The local `d1` of `blackScholesOptionPricing`. -/
def d1 (stockPrice strikePrice interestRate volatility timeToMaturity : ℝ) : ℝ :=
  (Real.log (stockPrice / strikePrice) +
      (interestRate + (volatility * volatility) / 2) * timeToMaturity) /
    (volatility * Real.sqrt timeToMaturity)

/-- The local `d2` of `blackScholesOptionPricing`. -/
def d2 (stockPrice strikePrice interestRate volatility timeToMaturity : ℝ) : ℝ :=
  d1 stockPrice strikePrice interestRate volatility timeToMaturity -
    (volatility * Real.sqrt timeToMaturity)

/-- The function `blackScholesOptionPricing` of the source. The day count is converted from
the `double` product, that is from the product as rounded to binary64. -/
def blackScholesOptionPricing (stockPrice strikePrice interestRate volatility
    timeToMaturity : ℝ) (isCallOption : Bool) : Contract :=
  let daysToExpiry := truncateToInt (roundDouble (timeToMaturity * roundDouble 365.2425))
  let d1 := d1 stockPrice strikePrice interestRate volatility timeToMaturity
  let d2 := d2 stockPrice strikePrice interestRate volatility timeToMaturity
  if isCallOption then
    let premium := stockPrice * cumulativeStandardNormal d1 -
      strikePrice * Real.exp (-interestRate * timeToMaturity) * cumulativeStandardNormal d2
    let vega := stockPrice * cumulativeStandardNormal d1 * Real.sqrt timeToMaturity
    { premium := premium
      dte := daysToExpiry
      delta := cumulativeStandardNormal d1
      gamma := cumulativeStandardNormal d1 /
        (stockPrice * volatility * Real.sqrt timeToMaturity)
      theta := (-(stockPrice * cumulativeStandardNormal d1 * volatility) /
          (2 * Real.sqrt timeToMaturity)) -
        (interestRate * strikePrice * Real.exp (-interestRate * timeToMaturity) *
          cumulativeStandardNormal d2)
      vega := vega
      rho := strikePrice * timeToMaturity * Real.exp (-interestRate * timeToMaturity) *
        cumulativeStandardNormal d2
      implied_volatility := volatility - ((premium - (premium - 0.01)) / vega)
      intrinsic_value := max (stockPrice - strikePrice) 0 }
  else
    let premium := strikePrice * Real.exp (-interestRate * timeToMaturity) *
        cumulativeStandardNormal (-d2) -
      stockPrice * cumulativeStandardNormal (-d1)
    let vega := stockPrice * cumulativeStandardNormal d1 * Real.sqrt timeToMaturity
    { premium := premium
      dte := daysToExpiry
      delta := cumulativeStandardNormal d1 - 1
      gamma := cumulativeStandardNormal d1 /
        (stockPrice * volatility * Real.sqrt timeToMaturity)
      theta := (-(stockPrice * cumulativeStandardNormal d1 * volatility) /
          (2 * Real.sqrt timeToMaturity)) +
        (interestRate * strikePrice * Real.exp (-interestRate * timeToMaturity) *
          cumulativeStandardNormal (-d2))
      vega := vega
      rho := -strikePrice * timeToMaturity * Real.exp (-interestRate * timeToMaturity) *
        cumulativeStandardNormal (-d2)
      implied_volatility := volatility - (((premium - 0.01) - premium) / vega)
      intrinsic_value := max (strikePrice - stockPrice) 0 }

/-! ## `Monte-Carlo-Simulation.cpp` -/

/-- State of the static generator: the standard-normal variates still to be produced. -/
abbrev Generator := ℕ → ℝ

/-- The function `generateGaussianNoise` of the source: one sample of the normal distribution
with the given mean and standard deviation, and the generator advanced by one variate. -/
def generateGaussianNoise (gaussianMean gaussianStandardDeviation : ℝ)
    (randomNumberGenerator : Generator) : ℝ × Generator :=
  (gaussianMean + gaussianStandardDeviation * randomNumberGenerator 0,
    fun k => randomNumberGenerator (k + 1))

/-- The function `callOptionPayoff` of the source. -/
def callOptionPayoff (simulatedStockPriceAtMaturity strikePrice : ℝ) : ℝ :=
  max (simulatedStockPriceAtMaturity - strikePrice) 0

/-- The function `putOptionPayoff` of the source. -/
def putOptionPayoff (simulatedStockPriceAtMaturity strikePrice : ℝ) : ℝ :=
  max (strikePrice - simulatedStockPriceAtMaturity) 0

/-- The `for` loop of `monteCarloOptionPricing`, entered at `simulationIndex` with the running
total `sumOfPayoffs`; returns the total and the generator state when the loop exits. -/
def simulationLoop (initialStockPrice strikePrice riskFreeInterestRate stockVolatility
    timeToMaturityInYears : ℝ) (numberOfSimulations : ℤ) (isCallOptionType : Bool)
    (simulationIndex : ℤ) (sumOfPayoffs : ℝ) (rng : Generator) : ℝ × Generator :=
  if simulationIndex < numberOfSimulations then
    let draw := generateGaussianNoise 0 1 rng
    let simulatedStockPriceAtMaturity := initialStockPrice *
      Real.exp ((riskFreeInterestRate - 0.5 * stockVolatility * stockVolatility) *
          timeToMaturityInYears +
        stockVolatility * Real.sqrt timeToMaturityInYears * draw.1)
    let simulatedPayoff :=
      if isCallOptionType then callOptionPayoff simulatedStockPriceAtMaturity strikePrice
      else putOptionPayoff simulatedStockPriceAtMaturity strikePrice
    simulationLoop initialStockPrice strikePrice riskFreeInterestRate stockVolatility
      timeToMaturityInYears numberOfSimulations isCallOptionType
      (simulationIndex + 1) (sumOfPayoffs + simulatedPayoff) draw.2
  else
    (sumOfPayoffs, rng)
termination_by (numberOfSimulations - simulationIndex).toNat
decreasing_by omega

/-- The function `monteCarloOptionPricing` of the source, with the generator state made
explicit: the price and the generator state after the call. -/
def monteCarloOptionPricing (initialStockPrice strikePrice riskFreeInterestRate
    stockVolatility timeToMaturityInYears : ℝ) (numberOfSimulations : ℤ)
    (isCallOptionType : Bool) (rng : Generator) : ℝ × Generator :=
  let loop := simulationLoop initialStockPrice strikePrice riskFreeInterestRate
    stockVolatility timeToMaturityInYears numberOfSimulations isCallOptionType 0 0 rng
  let averageSimulatedPayoff := loop.1 / (numberOfSimulations : ℝ)
  (Real.exp (-riskFreeInterestRate * timeToMaturityInYears) * averageSimulatedPayoff, loop.2)

/-! ## Outcome of a call -/

/-- The error condition named by the specification. Neither source file declares, throws or
returns it. -/
inductive PricingError where
  | InvalidInput

/-- A call of `blackScholesOptionPricing` as its caller observes it. The body is straight-line
code that ends in `return option;`: it tests none of its arguments and contains no `throw`, so
the outcome of every call is the computed record. -/
def blackScholesOptionPricingOutcome (stockPrice strikePrice interestRate volatility
    timeToMaturity : ℝ) (isCallOption : Bool) : Except PricingError Contract :=
  Except.ok (blackScholesOptionPricing stockPrice strikePrice interestRate volatility
    timeToMaturity isCallOption)

/-- A call of `monteCarloOptionPricing` as its caller observes it. The body tests
`numberOfSimulations` only in the loop condition and contains no `throw`, so the outcome of
every call is the computed price (with the generator state after the call). -/
def monteCarloOptionPricingOutcome (initialStockPrice strikePrice riskFreeInterestRate
    stockVolatility timeToMaturityInYears : ℝ) (numberOfSimulations : ℤ)
    (isCallOptionType : Bool) (rng : Generator) : Except PricingError (ℝ × Generator) :=
  Except.ok (monteCarloOptionPricing initialStockPrice strikePrice riskFreeInterestRate
    stockVolatility timeToMaturityInYears numberOfSimulations isCallOptionType rng)

/-! ## `Binomial-Option-Pricing.cpp` in binary64 -/

namespace Binary64

/-- First coefficient of the polynomial in `erf`, as the binary64 constant. -/
def A1 : ℝ := roundDouble 0.254829592
/-- Second coefficient of the polynomial in `erf`, as the binary64 constant. -/
def A2 : ℝ := roundDouble (-0.284496736)
/-- Third coefficient of the polynomial in `erf`, as the binary64 constant. -/
def A3 : ℝ := roundDouble 1.421413741
/-- Fourth coefficient of the polynomial in `erf`, as the binary64 constant. -/
def A4 : ℝ := roundDouble (-1.453152027)
/-- Fifth coefficient of the polynomial in `erf`, as the binary64 constant. -/
def A5 : ℝ := roundDouble 1.061405429
/-- Scale of the argument in `erf`, as the binary64 constant. -/
def P : ℝ := roundDouble 0.3275911

/-- Library `exp`, taken as correctly rounded. -/
def exp (x : ℝ) : ℝ := roundDouble (Real.exp x)

/-- Library `log`, taken as correctly rounded. -/
def log (x : ℝ) : ℝ := roundDouble (Real.log x)

/-- Library `sqrt`, correctly rounded. -/
def sqrt (x : ℝ) : ℝ := roundDouble (Real.sqrt x)

/-- The function `erf` of the source with every arithmetic operation rounded to binary64.
The product with `sign`, the negation and `fabs` are exact. -/
def erf (value : ℝ) : ℝ :=
  let sign : ℝ := if value ≥ 0 then 1 else -1
  let value := |value|
  let t := roundDouble (1 / roundDouble (1 + roundDouble (P * value)))
  let y := roundDouble (1 - roundDouble (roundDouble (roundDouble (roundDouble (roundDouble
    (roundDouble (roundDouble (roundDouble (roundDouble (roundDouble (A5 * t) + A4) * t) + A3)
      * t) + A2) * t) + A1) * t) * exp (roundDouble (-value * value))))
  sign * y

/-- The function `cumulativeStandardNormal` of the source in binary64. -/
def cumulativeStandardNormal (value : ℝ) : ℝ :=
  roundDouble (0.5 * roundDouble (1 + erf (roundDouble (value / sqrt 2))))

/-- Argument `t` of the polynomial in `erf`. -/
def erfArg (v : ℝ) : ℝ :=
  roundDouble (1 / roundDouble (1 + roundDouble (P * v)))

/-- One step `h * t + a` of the evaluation of the polynomial in `erf`. -/
def hornerStep (h t a : ℝ) : ℝ :=
  roundDouble (roundDouble (h * t) + a)

/-- The polynomial factor of `erf` as evaluated in binary64. -/
def erfPoly (t : ℝ) : ℝ :=
  roundDouble (hornerStep (hornerStep (hornerStep (hornerStep A5 t A4) t A3) t A2) t A1 * t)

/-- The quantity subtracted from `1` in `erf` at an argument of absolute value `v`. -/
def erfTail (v : ℝ) : ℝ :=
  roundDouble (erfPoly (erfArg v) * exp (roundDouble (-v * v)))

/-- The local `d1` of `blackScholesOptionPricing` in binary64. -/
def d1 (stockPrice strikePrice interestRate volatility timeToMaturity : ℝ) : ℝ :=
  roundDouble (roundDouble (log (roundDouble (stockPrice / strikePrice)) +
      roundDouble (roundDouble (interestRate +
        roundDouble (roundDouble (volatility * volatility) / 2)) * timeToMaturity)) /
    roundDouble (volatility * sqrt timeToMaturity))

/-- The local `d2` of `blackScholesOptionPricing` in binary64. -/
def d2 (stockPrice strikePrice interestRate volatility timeToMaturity : ℝ) : ℝ :=
  roundDouble (d1 stockPrice strikePrice interestRate volatility timeToMaturity -
    roundDouble (volatility * sqrt timeToMaturity))

/-- The function `blackScholesOptionPricing` of the source with every arithmetic operation
rounded to binary64, evaluated left to right as the expressions are written. Where a divisor
is zero the program produces an infinity or a NaN; the value that the quotient has in the model
then stands for nothing. -/
def blackScholesOptionPricing (stockPrice strikePrice interestRate volatility
    timeToMaturity : ℝ) (isCallOption : Bool) : Contract :=
  let daysToExpiry := truncateToInt (roundDouble (timeToMaturity * roundDouble 365.2425))
  let d1 := d1 stockPrice strikePrice interestRate volatility timeToMaturity
  let d2 := d2 stockPrice strikePrice interestRate volatility timeToMaturity
  let discount := exp (roundDouble (-interestRate * timeToMaturity))
  if isCallOption then
    let premium := roundDouble (roundDouble (stockPrice * cumulativeStandardNormal d1) -
      roundDouble (roundDouble (strikePrice * discount) * cumulativeStandardNormal d2))
    let vega := roundDouble (roundDouble (stockPrice * cumulativeStandardNormal d1) *
      sqrt timeToMaturity)
    { premium := premium
      dte := daysToExpiry
      delta := cumulativeStandardNormal d1
      gamma := roundDouble (cumulativeStandardNormal d1 /
        roundDouble (roundDouble (stockPrice * volatility) * sqrt timeToMaturity))
      theta := roundDouble (roundDouble
          (-roundDouble (roundDouble (stockPrice * cumulativeStandardNormal d1) * volatility) /
            roundDouble (2 * sqrt timeToMaturity)) -
        roundDouble (roundDouble (roundDouble (interestRate * strikePrice) * discount) *
          cumulativeStandardNormal d2))
      vega := vega
      rho := roundDouble (roundDouble (roundDouble (strikePrice * timeToMaturity) * discount) *
        cumulativeStandardNormal d2)
      implied_volatility := roundDouble (volatility -
        roundDouble (roundDouble (premium - roundDouble (premium - roundDouble 0.01)) / vega))
      intrinsic_value := max (roundDouble (stockPrice - strikePrice)) 0 }
  else
    let premium := roundDouble (roundDouble (roundDouble (strikePrice * discount) *
        cumulativeStandardNormal (-d2)) -
      roundDouble (stockPrice * cumulativeStandardNormal (-d1)))
    let vega := roundDouble (roundDouble (stockPrice * cumulativeStandardNormal d1) *
      sqrt timeToMaturity)
    { premium := premium
      dte := daysToExpiry
      delta := roundDouble (cumulativeStandardNormal d1 - 1)
      gamma := roundDouble (cumulativeStandardNormal d1 /
        roundDouble (roundDouble (stockPrice * volatility) * sqrt timeToMaturity))
      theta := roundDouble (roundDouble
          (-roundDouble (roundDouble (stockPrice * cumulativeStandardNormal d1) * volatility) /
            roundDouble (2 * sqrt timeToMaturity)) +
        roundDouble (roundDouble (roundDouble (interestRate * strikePrice) * discount) *
          cumulativeStandardNormal (-d2)))
      vega := vega
      rho := roundDouble (roundDouble (roundDouble (-strikePrice * timeToMaturity) * discount) *
        cumulativeStandardNormal (-d2))
      implied_volatility := roundDouble (volatility -
        roundDouble (roundDouble (roundDouble (premium - roundDouble 0.01) - premium) / vega))
      intrinsic_value := max (roundDouble (strikePrice - stockPrice)) 0 }

end Binary64

/-! ## Auxiliary definitions for the proofs -/

/-- The polynomial factor `((((A5 t + A4) t + A3) t + A2) t + A1) t` in the body of `erf`. -/
def erfPoly (t : ℝ) : ℝ :=
  ((((A5 * t + A4) * t + A3) * t + A2) * t + A1) * t

/-- The quantity subtracted from `1` in `erf` at an argument of absolute value `v`. -/
def erfTail (v : ℝ) : ℝ :=
  erfPoly (1 / (1 + P * v)) * Real.exp (-v * v)

/-- Payoff of one simulated terminal price, as selected by the conditional expression in the
loop body of `monteCarloOptionPricing`. -/
def simulatedPayoff (strikePrice : ℝ) (isCallOptionType : Bool) (terminal : ℝ) : ℝ :=
  if isCallOptionType then callOptionPayoff terminal strikePrice
  else putOptionPayoff terminal strikePrice

/-- Terminal price computed in the loop body of `monteCarloOptionPricing` from the draw `z`. -/
def terminalPrice (initialStockPrice riskFreeInterestRate stockVolatility
    timeToMaturityInYears z : ℝ) : ℝ :=
  initialStockPrice *
    Real.exp ((riskFreeInterestRate - 0.5 * stockVolatility * stockVolatility) *
        timeToMaturityInYears +
      stockVolatility * Real.sqrt timeToMaturityInYears * z)

end

/-! ## The shape of `erf` on each side of zero -/

theorem erf_eq_of_nonneg {x : ℝ} (hx : 0 ≤ x) : erf x = 1 - erfTail x := by
  simp only [erf, erfTail, erfPoly, ge_iff_le, hx, if_true, abs_of_nonneg hx, one_mul]

theorem erf_eq_of_neg {x : ℝ} (hx : x < 0) : erf x = -(1 - erfTail (-x)) := by
  have h : ¬ (0 ≤ x) := not_le.mpr hx
  simp only [erf, erfTail, erfPoly, ge_iff_le, h, if_false, abs_of_neg hx]
  ring

theorem erfPoly_one : erfPoly 1 = 0.999999999 := by
  simp only [erfPoly, A1, A2, A3, A4, A5]
  norm_num

theorem erfTail_zero : erfTail 0 = 0.999999999 := by
  simp [erfTail, erfPoly_one]

theorem erf_zero : erf 0 = 0.000000001 := by
  rw [erf_eq_of_nonneg le_rfl, erfTail_zero]
  norm_num

theorem erf_neg_of_ne_zero {x : ℝ} (hx : x ≠ 0) : erf (-x) = -erf x := by
  rcases lt_or_gt_of_ne hx with h | h
  · rw [erf_eq_of_neg h, erf_eq_of_nonneg (by linarith : (0 : ℝ) ≤ -x)]
    ring
  · rw [erf_eq_of_nonneg h.le, erf_eq_of_neg (by linarith : -x < 0), neg_neg]

theorem cumulativeStandardNormal_zero :
    cumulativeStandardNormal 0 = 0.5000000005 := by
  simp only [cumulativeStandardNormal, zero_div, erf_zero]
  norm_num

theorem cumulativeStandardNormal_add_neg {x : ℝ} (hx : x ≠ 0) :
    cumulativeStandardNormal x + cumulativeStandardNormal (-x) = 1 := by
  have h2 : Real.sqrt 2 ≠ 0 := by positivity
  have hx2 : x / Real.sqrt 2 ≠ 0 := div_ne_zero hx h2
  simp only [cumulativeStandardNormal, neg_div, erf_neg_of_ne_zero hx2]
  norm_num
  ring

/-! ## The polynomial factor and the bounds on `erf` -/

theorem erfPoly_hasDerivAt (x : ℝ) :
    HasDerivAt erfPoly
      (5 * A5 * x ^ 4 + 4 * A4 * x ^ 3 + 3 * A3 * x ^ 2 + 2 * A2 * x + A1) x := by
  have h1 : HasDerivAt (fun t : ℝ => A5 * t + A4) A5 x := by
    simpa using ((hasDerivAt_id x).const_mul A5).add_const A4
  have h2 := (h1.mul (hasDerivAt_id x)).add_const A3
  have h3 := (h2.mul (hasDerivAt_id x)).add_const A2
  have h4 := (h3.mul (hasDerivAt_id x)).add_const A1
  have h5 := h4.mul (hasDerivAt_id x)
  have he : erfPoly = fun t : ℝ => ((((A5 * t + A4) * t + A3) * t + A2) * t + A1) * t := by
    funext t; rfl
  rw [he]
  convert h5 using 1
  simp only [id]
  ring

theorem erfPoly_deriv_pos (x : ℝ) :
    0 < 5 * A5 * x ^ 4 + 4 * A4 * x ^ 3 + 3 * A3 * x ^ 2 + 2 * A2 * x + A1 := by
  simp only [A1, A2, A3, A4, A5]
  nlinarith [sq_nonneg (x * (x - 0.55)), sq_nonneg (x - 0.1), sq_nonneg x, sq_nonneg (x * x)]

theorem erfPoly_strictMono : StrictMono erfPoly := by
  apply strictMono_of_deriv_pos
  intro x
  rw [(erfPoly_hasDerivAt x).deriv]
  exact erfPoly_deriv_pos x

theorem erfPoly_zero : erfPoly 0 = 0 := by
  simp [erfPoly]

theorem P_pos : 0 < P := by
  simp only [P]; norm_num

/-- The argument `t = 1 / (1 + P v)` of the polynomial lies in `(0, 1]` for `v ≥ 0`. -/
theorem erfArg_mem {v : ℝ} (hv : 0 ≤ v) : 0 < 1 / (1 + P * v) ∧ 1 / (1 + P * v) ≤ 1 := by
  have hP := P_pos
  have h1 : 1 ≤ 1 + P * v := by nlinarith [mul_nonneg hP.le hv]
  have h0 : 0 < 1 + P * v := by linarith
  refine ⟨by positivity, ?_⟩
  rw [div_le_one h0]
  exact h1

theorem erfArg_antitone {v w : ℝ} (hv : 0 ≤ v) (hvw : v ≤ w) :
    1 / (1 + P * w) ≤ 1 / (1 + P * v) := by
  have hP := P_pos
  have h0 : 0 < 1 + P * v := by nlinarith [mul_nonneg hP.le hv]
  apply one_div_le_one_div_of_le h0
  nlinarith [mul_le_mul_of_nonneg_left hvw hP.le]

theorem erfTail_pos {v : ℝ} (hv : 0 ≤ v) : 0 < erfTail v := by
  have ht := erfArg_mem hv
  have hp : 0 < erfPoly (1 / (1 + P * v)) := by
    have := erfPoly_strictMono ht.1
    rwa [erfPoly_zero] at this
  exact mul_pos hp (Real.exp_pos _)

theorem erfTail_antitone {v w : ℝ} (hv : 0 ≤ v) (hvw : v ≤ w) : erfTail w ≤ erfTail v := by
  have hw : 0 ≤ w := hv.trans hvw
  have hpw : 0 ≤ erfPoly (1 / (1 + P * w)) := by
    have := erfPoly_strictMono.monotone (erfArg_mem hw).1.le
    rwa [erfPoly_zero] at this
  have hp : erfPoly (1 / (1 + P * w)) ≤ erfPoly (1 / (1 + P * v)) :=
    erfPoly_strictMono.monotone (erfArg_antitone hv hvw)
  have he : Real.exp (-w * w) ≤ Real.exp (-v * v) := by
    apply Real.exp_le_exp.mpr
    nlinarith [mul_le_mul hvw hvw hv hw]
  exact mul_le_mul hp he (Real.exp_pos _).le (hpw.trans hp)

theorem erfTail_le {v : ℝ} (hv : 0 ≤ v) : erfTail v ≤ 0.999999999 := by
  have := erfTail_antitone le_rfl hv
  rwa [erfTail_zero] at this

theorem erf_bounds_of_nonneg {x : ℝ} (hx : 0 ≤ x) : 0.000000001 ≤ erf x ∧ erf x < 1 := by
  rw [erf_eq_of_nonneg hx]
  have h1 := erfTail_pos hx
  have h2 := erfTail_le hx
  constructor <;> linarith

theorem erf_bounds_of_neg {x : ℝ} (hx : x < 0) : -1 < erf x ∧ erf x ≤ -0.000000001 := by
  rw [erf_eq_of_neg hx]
  have hx' : (0 : ℝ) ≤ -x := by linarith
  have h1 := erfTail_pos hx'
  have h2 := erfTail_le hx'
  constructor <;> linarith

theorem erf_gt_neg_one (x : ℝ) : -1 < erf x := by
  rcases lt_or_le x 0 with h | h
  · exact (erf_bounds_of_neg h).1
  · linarith [(erf_bounds_of_nonneg h).1]

theorem erf_lt_one (x : ℝ) : erf x < 1 := by
  rcases lt_or_le x 0 with h | h
  · linarith [(erf_bounds_of_neg h).2]
  · exact (erf_bounds_of_nonneg h).2

theorem cumulativeStandardNormal_pos (x : ℝ) : 0 < cumulativeStandardNormal x := by
  have := erf_gt_neg_one (x / Real.sqrt 2)
  simp only [cumulativeStandardNormal]
  norm_num
  linarith

theorem cumulativeStandardNormal_lt_one (x : ℝ) : cumulativeStandardNormal x < 1 := by
  have := erf_lt_one (x / Real.sqrt 2)
  simp only [cumulativeStandardNormal]
  norm_num
  linarith

theorem generateGaussianNoise_standard (rng : Generator) :
    generateGaussianNoise 0 1 rng = (rng 0, fun k => rng (k + 1)) := by
  simp [generateGaussianNoise]

/-- Entered with `m` iterations left, the loop adds the payoffs of the next `m` draws to the
running total and leaves the generator advanced by `m`. -/
theorem simulationLoop_eq (S K r σ T : ℝ) (n : ℤ) (isCall : Bool) (m : ℕ) :
    ∀ (i : ℤ) (sum : ℝ) (rng : Generator), i + m = n →
      simulationLoop S K r σ T n isCall i sum rng =
        (sum + ∑ k in Finset.range m, simulatedPayoff K isCall (terminalPrice S r σ T (rng k)),
          fun k => rng (k + m)) := by
  induction m with
  | zero =>
    intro i sum rng h
    have hi : ¬ i < n := by simp at h; omega
    rw [simulationLoop]
    simp [hi]
  | succ m ih =>
    intro i sum rng h
    have hi : i < n := by push_cast at h; omega
    rw [simulationLoop]
    simp only [hi, if_true, generateGaussianNoise_standard]
    rw [ih (i + 1) _ _ (by push_cast at h; omega), Finset.sum_range_succ']
    simp only [simulatedPayoff, terminalPrice, Prod.mk.injEq]
    constructor
    · ring
    · funext k
      rfl

/-! ## Put-call parity -/

theorem cumulativeStandardNormal_add_neg_zero :
    cumulativeStandardNormal 0 + cumulativeStandardNormal (-0) = 1 + 0.000000001 := by
  rw [neg_zero, cumulativeStandardNormal_zero]
  norm_num

theorem premium_sub_premium (S K r σ T : ℝ) :
    (blackScholesOptionPricing S K r σ T true).premium -
        (blackScholesOptionPricing S K r σ T false).premium =
      S * (cumulativeStandardNormal (d1 S K r σ T) +
          cumulativeStandardNormal (-d1 S K r σ T)) -
        K * Real.exp (-r * T) * (cumulativeStandardNormal (d2 S K r σ T) +
          cumulativeStandardNormal (-d2 S K r σ T)) := by
  simp only [blackScholesOptionPricing, if_true, Bool.false_eq_true, if_false]
  ring

/-- The parity gap of the two premiums differs from `S - K * exp (-r T)` by at most `1e-9`
times the larger of the two terms: nothing when `d1` and `d2` are not `0`, and `1e-9` times one
term when one of them is `0`. -/
theorem abs_premium_gap_le {S K r σ T : ℝ} (hs : 0 < S) (hk : 0 < K) (hv : 0 < σ)
    (hT : 0 < T) :
    |((blackScholesOptionPricing S K r σ T true).premium -
          (blackScholesOptionPricing S K r σ T false).premium) -
        (S - K * Real.exp (-r * T))| ≤
      0.000000001 * max S (K * Real.exp (-r * T)) := by
  have hke : 0 < K * Real.exp (-r * T) := mul_pos hk (Real.exp_pos _)
  have hgap : 0 < σ * Real.sqrt T := mul_pos hv (Real.sqrt_pos.mpr hT)
  have hd : d2 S K r σ T = d1 S K r σ T - σ * Real.sqrt T := rfl
  rw [premium_sub_premium]
  by_cases h1 : d1 S K r σ T = 0
  · have h2 : d2 S K r σ T ≠ 0 := by
      rw [hd, h1]; linarith
    rw [cumulativeStandardNormal_add_neg h2, h1, cumulativeStandardNormal_add_neg_zero]
    rw [show S * (1 + 0.000000001) - K * Real.exp (-r * T) * 1 -
      (S - K * Real.exp (-r * T)) = 0.000000001 * S by ring,
      abs_of_pos (by positivity)]
    exact mul_le_mul_of_nonneg_left (le_max_left _ _) (by norm_num)
  · rw [cumulativeStandardNormal_add_neg h1]
    by_cases h2 : d2 S K r σ T = 0
    · rw [h2, cumulativeStandardNormal_add_neg_zero]
      rw [show S * 1 - K * Real.exp (-r * T) * (1 + 0.000000001) -
        (S - K * Real.exp (-r * T)) =
          -(0.000000001 * (K * Real.exp (-r * T))) by ring,
        abs_neg, abs_of_pos (by positivity)]
      exact mul_le_mul_of_nonneg_left (le_max_right _ _) (by norm_num)
    · rw [cumulativeStandardNormal_add_neg h2]
      rw [show S * 1 - K * Real.exp (-r * T) * 1 -
        (S - K * Real.exp (-r * T)) = 0 by ring, abs_zero]
      exact mul_nonneg (by norm_num) (le_trans hs.le (le_max_left _ _))

/-! ## Numerical enclosures for the literal scenario -/

theorem sqrt_two_bounds : (1.4142135 : ℝ) ≤ Real.sqrt 2 ∧ Real.sqrt 2 ≤ 1.4142136 := by
  constructor
  · rw [Real.le_sqrt' (by norm_num)]; norm_num
  · rw [Real.sqrt_le_left (by norm_num)]; norm_num

/-- For a non-negative argument, the value of `cumulativeStandardNormal` in terms of the
polynomial factor and the exponential. -/
theorem cumulativeStandardNormal_eq_of_nonneg {x : ℝ} (hx : 0 ≤ x) :
    cumulativeStandardNormal x =
      1 - 0.5 * (erfPoly (1 / (1 + P * (x / Real.sqrt 2))) * Real.exp (-(x ^ 2 / 2))) := by
  have h2 : (0 : ℝ) < Real.sqrt 2 := by positivity
  have hu : 0 ≤ x / Real.sqrt 2 := div_nonneg hx h2.le
  have hsq : -(x / Real.sqrt 2) * (x / Real.sqrt 2) = -(x ^ 2 / 2) := by
    rw [neg_mul, div_mul_div_comm, Real.mul_self_sqrt (by norm_num), pow_two]
  rw [cumulativeStandardNormal, erf_eq_of_nonneg hu, erfTail, hsq]
  ring

/-- Enclosure of `cumulativeStandardNormal x` for `x ≥ 0` from enclosures of the polynomial
argument and of the exponential. -/
theorem cumulativeStandardNormal_enclosure {x tl th el eh : ℝ} (hx : 0 ≤ x) (htl : 0 ≤ tl)
    (ht1 : tl ≤ 1 / (1 + P * (x / Real.sqrt 2))) (ht2 : 1 / (1 + P * (x / Real.sqrt 2)) ≤ th)
    (hel : 0 ≤ el) (he1 : el ≤ Real.exp (-(x ^ 2 / 2))) (he2 : Real.exp (-(x ^ 2 / 2)) ≤ eh) :
    1 - 0.5 * (erfPoly th * eh) ≤ cumulativeStandardNormal x ∧
      cumulativeStandardNormal x ≤ 1 - 0.5 * (erfPoly tl * el) := by
  have hm := erfPoly_strictMono.monotone
  have hp0 : 0 ≤ erfPoly tl := by
    have := hm htl
    rwa [erfPoly_zero] at this
  have hp1 := hm ht1
  have hp2 := hm ht2
  have hlo : erfPoly tl * el ≤
      erfPoly (1 / (1 + P * (x / Real.sqrt 2))) * Real.exp (-(x ^ 2 / 2)) :=
    mul_le_mul hp1 he1 hel (hp0.trans hp1)
  have hhi : erfPoly (1 / (1 + P * (x / Real.sqrt 2))) * Real.exp (-(x ^ 2 / 2)) ≤
      erfPoly th * eh :=
    mul_le_mul hp2 he2 (Real.exp_pos _).le ((hp0.trans hp1).trans hp2)
  rw [cumulativeStandardNormal_eq_of_nonneg hx]
  constructor <;> linarith

/-- Enclosure of the polynomial argument `1 / (1 + P (x / √2))` for `x ≥ 0`. -/
theorem erfArg_enclosure {x : ℝ} (hx : 0 ≤ x) :
    1 / (1 + P * (x / 1.4142135)) ≤ 1 / (1 + P * (x / Real.sqrt 2)) ∧
      1 / (1 + P * (x / Real.sqrt 2)) ≤ 1 / (1 + P * (x / 1.4142136)) := by
  have hP := P_pos
  have hs := sqrt_two_bounds
  have h2 : (0 : ℝ) < Real.sqrt 2 := by positivity
  have ha : x / Real.sqrt 2 ≤ x / 1.4142135 :=
    div_le_div_of_nonneg_left hx (by norm_num) hs.1
  have hb : x / 1.4142136 ≤ x / Real.sqrt 2 :=
    div_le_div_of_nonneg_left hx h2 hs.2
  have hc : 0 ≤ x / 1.4142136 := by positivity
  constructor
  · apply one_div_le_one_div_of_le
    · nlinarith [mul_nonneg hP.le (hc.trans hb)]
    · nlinarith [mul_le_mul_of_nonneg_left ha hP.le]
  · apply one_div_le_one_div_of_le
    · nlinarith [mul_nonneg hP.le hc]
    · nlinarith [mul_le_mul_of_nonneg_left hb hP.le]

/-- Fifth-order Taylor enclosure of `exp (-y)` for `0 ≤ y ≤ 1`. -/
theorem exp_neg_enclosure {y : ℝ} (h0 : 0 ≤ y) (h1 : y ≤ 1) :
    1 - y + y ^ 2 / 2 - y ^ 3 / 6 + y ^ 4 / 24 - y ^ 5 / 100 ≤ Real.exp (-y) ∧
      Real.exp (-y) ≤ 1 - y + y ^ 2 / 2 - y ^ 3 / 6 + y ^ 4 / 24 + y ^ 5 / 100 := by
  have hb := Real.exp_bound (show |(-y)| ≤ 1 by rw [abs_neg, abs_of_nonneg h0]; exact h1)
    (show 0 < 5 by norm_num)
  rw [abs_neg, abs_of_nonneg h0] at hb
  simp only [Finset.sum_range_succ, Finset.sum_range_zero, Nat.factorial] at hb
  norm_num at hb
  rw [abs_le] at hb
  constructor <;> nlinarith [hb.1, hb.2]

theorem cumulativeStandardNormal_035 :
    0.636829 ≤ cumulativeStandardNormal 0.35 ∧ cumulativeStandardNormal 0.35 ≤ 0.636832 := by
  have hx : (0 : ℝ) ≤ 0.35 := by norm_num
  have ht := erfArg_enclosure hx
  have he := exp_neg_enclosure (show (0 : ℝ) ≤ 0.35 ^ 2 / 2 by norm_num)
    (show (0.35 : ℝ) ^ 2 / 2 ≤ 1 by norm_num)
  have hN := cumulativeStandardNormal_enclosure hx
    (show (0 : ℝ) ≤ 0.925005 by norm_num)
    (le_trans (show (0.925005 : ℝ) ≤ 1 / (1 + P * (0.35 / 1.4142135)) by
      simp only [P]; norm_num) ht.1)
    (le_trans ht.2 (show 1 / (1 + P * (0.35 / 1.4142136)) ≤ (0.925006 : ℝ) by
      simp only [P]; norm_num))
    (show (0 : ℝ) ≤ 0.940588 by norm_num)
    (le_trans (by norm_num) he.1)
    (show Real.exp (-(0.35 ^ 2 / 2)) ≤ (0.940589 : ℝ) from le_trans he.2 (by norm_num))
  have h1 : (0.636829 : ℝ) ≤ 1 - 0.5 * (erfPoly 0.925006 * 0.940589) := by
    simp only [erfPoly, A1, A2, A3, A4, A5]; norm_num
  have h2 : 1 - 0.5 * (erfPoly 0.925005 * 0.940588) ≤ (0.636832 : ℝ) := by
    simp only [erfPoly, A1, A2, A3, A4, A5]; norm_num
  exact ⟨h1.trans hN.1, hN.2.trans h2⟩

theorem cumulativeStandardNormal_015 :
    0.559616 ≤ cumulativeStandardNormal 0.15 ∧ cumulativeStandardNormal 0.15 ≤ 0.559620 := by
  have hx : (0 : ℝ) ≤ 0.15 := by norm_num
  have ht := erfArg_enclosure hx
  have he := exp_neg_enclosure (show (0 : ℝ) ≤ 0.15 ^ 2 / 2 by norm_num)
    (show (0.15 : ℝ) ^ 2 / 2 ≤ 1 by norm_num)
  have hN := cumulativeStandardNormal_enclosure hx
    (show (0 : ℝ) ≤ 0.966420 by norm_num)
    (le_trans (show (0.966420 : ℝ) ≤ 1 / (1 + P * (0.15 / 1.4142135)) by
      simp only [P]; norm_num) ht.1)
    (le_trans ht.2 (show 1 / (1 + P * (0.15 / 1.4142136)) ≤ (0.966421 : ℝ) by
      simp only [P]; norm_num))
    (show (0 : ℝ) ≤ 0.988813 by norm_num)
    (le_trans (by norm_num) he.1)
    (show Real.exp (-(0.15 ^ 2 / 2)) ≤ (0.988814 : ℝ) from le_trans he.2 (by norm_num))
  have h1 : (0.559616 : ℝ) ≤ 1 - 0.5 * (erfPoly 0.966421 * 0.988814) := by
    simp only [erfPoly, A1, A2, A3, A4, A5]; norm_num
  have h2 : 1 - 0.5 * (erfPoly 0.966420 * 0.988813) ≤ (0.559620 : ℝ) := by
    simp only [erfPoly, A1, A2, A3, A4, A5]; norm_num
  exact ⟨h1.trans hN.1, hN.2.trans h2⟩

theorem exp_neg_005 :
    0.951229 ≤ Real.exp (-0.05 * 1) ∧ Real.exp (-0.05 * 1) ≤ 0.951230 := by
  have he := exp_neg_enclosure (show (0 : ℝ) ≤ 0.05 by norm_num)
    (show (0.05 : ℝ) ≤ 1 by norm_num)
  rw [show (-0.05 : ℝ) * 1 = -0.05 by norm_num]
  exact ⟨le_trans (by norm_num) he.1, le_trans he.2 (by norm_num)⟩

theorem d1_main : d1 100 100 0.05 0.2 1 = 0.35 := by
  simp only [d1, Real.sqrt_one]
  rw [div_self (by norm_num : (100 : ℝ) ≠ 0), Real.log_one]
  norm_num

theorem d2_main : d2 100 100 0.05 0.2 1 = 0.15 := by
  simp only [d2, d1_main, Real.sqrt_one]
  norm_num

/-! ## Closed form and bounds of the Monte Carlo estimate -/

theorem monteCarloOptionPricing_fst (S K r σ T : ℝ) (n : ℕ) (isCall : Bool) (z : Generator) :
    (monteCarloOptionPricing S K r σ T (n : ℤ) isCall z).1 =
      Real.exp (-r * T) *
        ((∑ k in Finset.range n, simulatedPayoff K isCall (terminalPrice S r σ T (z k))) /
          (n : ℝ)) := by
  simp only [monteCarloOptionPricing]
  rw [simulationLoop_eq S K r σ T n isCall n 0 0 z (by simp)]
  simp only [zero_add, Int.cast_natCast]

theorem terminalPrice_eq (S r σ T z : ℝ) :
    terminalPrice S r σ T z = S * Real.exp ((r - σ ^ 2 / 2) * T + σ * Real.sqrt T * z) := by
  simp only [terminalPrice]
  congr 2
  ring

theorem simulatedPayoff_call_sub_put (K s : ℝ) :
    simulatedPayoff K true s - simulatedPayoff K false s = s - K := by
  simp only [simulatedPayoff, if_true, Bool.false_eq_true, if_false, callOptionPayoff,
    putOptionPayoff]
  rcases le_total s K with h | h
  · rw [max_eq_right (by linarith), max_eq_left (by linarith)]
    ring
  · rw [max_eq_left (by linarith), max_eq_right (by linarith)]
    ring

/-! ## The loop when no iteration is due -/

theorem simulationLoop_of_nonpos (S K r σ T : ℝ) {n : ℤ} (hn : n ≤ 0) (isCall : Bool)
    (rng : Generator) : simulationLoop S K r σ T n isCall 0 0 rng = (0, rng) := by
  have h : ¬ (0 : ℤ) < n := not_lt.mpr hn
  rw [simulationLoop]
  simp only [h, if_false]

/-! ## Sign of the analytic premium -/

theorem roundNearestEven_eq_of_abs_lt {y : ℝ} {n : ℤ} (h : |y - n| < 1 / 2) :
    roundNearestEven y = n := by
  rw [abs_lt] at h
  rcases le_or_lt (n : ℝ) y with hle | hlt
  · have hf : ⌊y⌋ = n := by
      rw [Int.floor_eq_iff]
      constructor <;> linarith
    have hfr : Int.fract y < 1 / 2 := by
      rw [Int.fract, hf]
      linarith
    rw [roundNearestEven, if_pos hfr, hf]
  · have hf : ⌊y⌋ = n - 1 := by
      rw [Int.floor_eq_iff]
      push_cast
      constructor <;> linarith
    have hfr : 1 / 2 < Int.fract y := by
      rw [Int.fract, hf]
      push_cast
      linarith
    rw [roundNearestEven, if_neg (not_lt.mpr hfr.le), if_pos hfr, hf]
    ring

theorem roundNearestEven_intCast (n : ℤ) : roundNearestEven (n : ℝ) = n :=
  roundNearestEven_eq_of_abs_lt (by simp)

theorem abs_roundNearestEven_sub_le (y : ℝ) : |(roundNearestEven y : ℝ) - y| ≤ 1 / 2 := by
  have h0 := Int.fract_nonneg y
  have h1 := Int.fract_lt_one y
  have hy : y = ⌊y⌋ + Int.fract y := (Int.floor_add_fract y).symm
  rw [abs_le]
  unfold roundNearestEven
  split_ifs with ha hb hc
  · constructor <;> linarith
  · push_cast
    constructor <;> linarith
  · have : Int.fract y = 1 / 2 := le_antisymm (not_lt.mp hb) (not_lt.mp ha)
    constructor <;> linarith
  · have : Int.fract y = 1 / 2 := le_antisymm (not_lt.mp hb) (not_lt.mp ha)
    push_cast
    constructor <;> linarith

theorem ulp_pos (x : ℝ) : 0 < ulp x := by
  unfold ulp
  positivity

theorem ulp_eq_of_binade {x : ℝ} {e : ℤ} (hlo : (2 : ℝ) ^ e ≤ |x|) (hhi : |x| < (2 : ℝ) ^ (e + 1)) :
    ulp x = (2 : ℝ) ^ (e - 52) := by
  have hpos : 0 < |x| := lt_of_lt_of_le (by positivity) hlo
  have h1 : e ≤ Int.log 2 |x| := by
    rw [← Int.zpow_le_iff_le_log (by norm_num) hpos]
    simpa using hlo
  have h2 : Int.log 2 |x| < e + 1 := by
    rw [← Int.lt_zpow_iff_log_lt (by norm_num) hpos]
    simpa using hhi
  have : Int.log 2 |x| = e := by omega
  rw [ulp, this]

theorem roundDouble_eq_of_binade {x : ℝ} {e : ℤ} (hlo : (2 : ℝ) ^ e ≤ |x|)
    (hhi : |x| < (2 : ℝ) ^ (e + 1)) :
    roundDouble x = (roundNearestEven (x / (2 : ℝ) ^ (e - 52)) : ℝ) * (2 : ℝ) ^ (e - 52) := by
  rw [roundDouble, ulp_eq_of_binade hlo hhi]

theorem roundDouble_zero : roundDouble 0 = 0 := by
  simp [roundDouble, roundNearestEven]

theorem ulp_le (x : ℝ) (hx : x ≠ 0) : ulp x ≤ |x| * (2 : ℝ) ^ (-52 : ℤ) := by
  have hpos : 0 < |x| := abs_pos.mpr hx
  have h := Int.zpow_log_le_self (b := 2) (by norm_num) hpos
  rw [ulp, sub_eq_add_neg, zpow_add₀ (by norm_num : (2 : ℝ) ≠ 0)]
  have h' : (2 : ℝ) ^ Int.log 2 |x| ≤ |x| := by simpa using h
  exact mul_le_mul_of_nonneg_right h' (by positivity)

/-- The relative error of one rounding is at most `2 ^ (-53)`. -/
theorem abs_roundDouble_sub_le (x : ℝ) : |roundDouble x - x| ≤ |x| * (2 : ℝ) ^ (-53 : ℤ) := by
  rcases eq_or_ne x 0 with rfl | hx
  · simp [roundDouble_zero]
  have hu := ulp_pos x
  have h := abs_roundNearestEven_sub_le (x / ulp x)
  have hx' : roundDouble x - x = ((roundNearestEven (x / ulp x) : ℝ) - x / ulp x) * ulp x := by
    rw [roundDouble]
    field_simp
  rw [hx', abs_mul, abs_of_pos hu]
  have h2 := ulp_le x hx
  have h3 : (2 : ℝ) ^ (-53 : ℤ) = (2 : ℝ) ^ (-52 : ℤ) * (1 / 2) := by
    rw [show (-53 : ℤ) = -52 + -1 by norm_num, zpow_add₀ (by norm_num : (2 : ℝ) ≠ 0)]
    norm_num
  calc |(roundNearestEven (x / ulp x) : ℝ) - x / ulp x| * ulp x
      ≤ 1 / 2 * ulp x := mul_le_mul_of_nonneg_right h hu.le
    _ ≤ 1 / 2 * (|x| * (2 : ℝ) ^ (-52 : ℤ)) := mul_le_mul_of_nonneg_left h2 (by norm_num)
    _ = |x| * (2 : ℝ) ^ (-53 : ℤ) := by rw [h3]; ring

theorem two_zpow_neg53_lt : (2 : ℝ) ^ (-53 : ℤ) < 0.0000000000000002 := by
  norm_num

/-- One rounding of a non-negative real keeps it inside a slightly widened enclosure. -/
theorem roundDouble_enclosure_of_nonneg {x l u l' u' : ℝ} (h0 : 0 ≤ l) (h1 : l ≤ x)
    (h2 : x ≤ u) (hlo : l' ≤ l * (1 - 0.0000000000000002))
    (hhi : u * (1 + 0.0000000000000002) ≤ u') :
    l' ≤ roundDouble x ∧ roundDouble x ≤ u' := by
  have hx : 0 ≤ x := h0.trans h1
  obtain ⟨a, he, h⟩ : ∃ a : ℝ, a < 0.0000000000000002 ∧ |roundDouble x - x| ≤ |x| * a :=
    ⟨_, two_zpow_neg53_lt, abs_roundDouble_sub_le x⟩
  rw [abs_of_nonneg hx, abs_le] at h
  have hxe : x * a ≤ x * 0.0000000000000002 := mul_le_mul_of_nonneg_left he.le hx
  have hA : x * (1 - 0.0000000000000002) ≤ roundDouble x := by
    have := h.1
    rw [mul_sub, mul_one]
    linarith
  have hB : roundDouble x ≤ x * (1 + 0.0000000000000002) := by
    have := h.2
    rw [mul_add, mul_one]
    linarith
  exact ⟨hlo.trans ((mul_le_mul_of_nonneg_right h1 (by norm_num)).trans hA),
    (hB.trans (mul_le_mul_of_nonneg_right h2 (by norm_num))).trans hhi⟩

/-- One rounding of a non-positive real keeps it inside a slightly widened enclosure. -/
theorem roundDouble_enclosure_of_nonpos {x l u l' u' : ℝ} (h0 : u ≤ 0) (h1 : l ≤ x)
    (h2 : x ≤ u) (hlo : l' ≤ l * (1 + 0.0000000000000002))
    (hhi : u * (1 - 0.0000000000000002) ≤ u') :
    l' ≤ roundDouble x ∧ roundDouble x ≤ u' := by
  have hx : x ≤ 0 := h2.trans h0
  obtain ⟨a, he, h⟩ : ∃ a : ℝ, a < 0.0000000000000002 ∧ |roundDouble x - x| ≤ |x| * a :=
    ⟨_, two_zpow_neg53_lt, abs_roundDouble_sub_le x⟩
  rw [abs_of_nonpos hx, abs_le] at h
  have hxe : (-x) * a ≤ (-x) * 0.0000000000000002 :=
    mul_le_mul_of_nonneg_left he.le (by linarith)
  have hA : x * (1 + 0.0000000000000002) ≤ roundDouble x := by
    have := h.1
    rw [mul_add, mul_one]
    linarith
  have hB : roundDouble x ≤ x * (1 - 0.0000000000000002) := by
    have := h.2
    rw [mul_sub, mul_one]
    linarith
  exact ⟨hlo.trans ((mul_le_mul_of_nonneg_right h1 (by norm_num)).trans hA),
    (hB.trans (mul_le_mul_of_nonneg_right h2 (by norm_num))).trans hhi⟩

theorem roundDouble_nonneg {x : ℝ} (hx : 0 ≤ x) : 0 ≤ roundDouble x :=
  (roundDouble_enclosure_of_nonneg le_rfl hx le_rfl (by norm_num) (le_refl _)).1

/-- A real that lies within half a unit in the last place of a grid point rounds to it. -/
theorem roundDouble_eq_of_close {x : ℝ} {e n : ℤ} (hlo : (2 : ℝ) ^ e ≤ |x|)
    (hhi : |x| < (2 : ℝ) ^ (e + 1)) (h : |x / (2 : ℝ) ^ (e - 52) - n| < 1 / 2) :
    roundDouble x = n * (2 : ℝ) ^ (e - 52) := by
  rw [roundDouble_eq_of_binade hlo hhi, roundNearestEven_eq_of_abs_lt h]

/-- Numbers `m * 2 ^ k` with `|m| < 2 ^ 53` are binary64 numbers: rounding leaves them alone. -/
theorem roundDouble_eq_self {x : ℝ} (m k : ℤ) (hm : |m| < 2 ^ 53) (hx : x = m * (2 : ℝ) ^ k) :
    roundDouble x = x := by
  rcases eq_or_ne m 0 with rfl | hm0
  · simp only [Int.cast_zero, zero_mul] at hx
    rw [hx, roundDouble_zero]
  have h2 : (2 : ℝ) ≠ 0 := by norm_num
  have hxabs : |x| = (|m| : ℤ) * (2 : ℝ) ^ k := by
    rw [hx, abs_mul, abs_of_pos (show (0 : ℝ) < 2 ^ k by positivity), Int.cast_abs]
  have hpos : 0 < |x| := by
    rw [hxabs]
    have : (0 : ℝ) < ((|m| : ℤ) : ℝ) := by exact_mod_cast abs_pos.mpr hm0
    positivity
  have hlt : |x| < (2 : ℝ) ^ (53 + k) := by
    rw [hxabs, zpow_add₀ h2]
    have : ((|m| : ℤ) : ℝ) < (2 : ℝ) ^ (53 : ℤ) := by exact_mod_cast hm
    exact mul_lt_mul_of_pos_right this (by positivity)
  have hlog : Int.log 2 |x| < 53 + k := by
    rw [← Int.lt_zpow_iff_log_lt (by norm_num) hpos]
    simpa using hlt
  obtain ⟨j, hj⟩ : ∃ j : ℕ, (j : ℤ) = k - (Int.log 2 |x| - 52) := ⟨(k - (Int.log 2 |x| - 52)).toNat, by omega⟩
  have hquot : x / ulp x = ((m * 2 ^ j : ℤ) : ℝ) := by
    have hu : ulp x = (2 : ℝ) ^ (Int.log 2 |x| - 52) := rfl
    rw [hu]
    nth_rewrite 1 [hx]
    rw [mul_div_assoc, ← zpow_sub₀ h2, ← hj]
    push_cast
    rw [zpow_natCast]
  rw [roundDouble, hquot, roundNearestEven_intCast, ← hquot]
  field_simp [(ulp_pos x).ne']

theorem roundDouble_one : roundDouble 1 = 1 :=
  roundDouble_eq_self 1 0 (by norm_num) (by norm_num)

theorem roundDouble_two : roundDouble 2 = 2 :=
  roundDouble_eq_self 2 0 (by norm_num) (by norm_num)

theorem roundDouble_half : roundDouble 0.5 = 0.5 :=
  roundDouble_eq_self 1 (-1) (by norm_num) (by norm_num)

/-- Subtracting less than a quarter of a unit in the last place from `1` rounds back to `1`. -/
theorem roundDouble_one_sub {τ : ℝ} (h : |τ| < (2 : ℝ) ^ (-54 : ℤ)) : roundDouble (1 - τ) = 1 := by
  have h54 : (2 : ℝ) ^ (-54 : ℤ) = 1 / 18014398509481984 := by norm_num
  rw [h54, abs_lt] at h
  rcases le_or_lt τ 0 with hτ | hτ
  · have hb : roundDouble (1 - τ) = (4503599627370496 : ℤ) * (2 : ℝ) ^ ((0 : ℤ) - 52) := by
      apply roundDouble_eq_of_close
      · rw [abs_of_pos (by linarith)]; norm_num; linarith
      · rw [abs_of_pos (by linarith)]; norm_num; linarith
      · rw [abs_lt]; norm_num; constructor <;> linarith
    rw [hb]; norm_num
  · have hb : roundDouble (1 - τ) = (9007199254740992 : ℤ) * (2 : ℝ) ^ ((-1 : ℤ) - 52) := by
      apply roundDouble_eq_of_close
      · rw [abs_of_pos (by linarith)]; norm_num; linarith
      · rw [abs_of_pos (by linarith)]; norm_num; linarith
      · rw [abs_lt]; norm_num; constructor <;> linarith
    rw [hb]; norm_num

theorem le_roundDouble_of_le {x l l' : ℝ} (h0 : 0 ≤ l) (h1 : l ≤ x)
    (hlo : l' ≤ l * (1 - 0.0000000000000002)) : l' ≤ roundDouble x :=
  (roundDouble_enclosure_of_nonneg h0 h1 le_rfl hlo le_rfl).1

theorem roundDouble_le_of_le {x u u' : ℝ} (h0 : 0 ≤ x) (h2 : x ≤ u)
    (hhi : u * (1 + 0.0000000000000002) ≤ u') : roundDouble x ≤ u' :=
  (roundDouble_enclosure_of_nonneg h0 le_rfl h2 le_rfl hhi).2

theorem roundDouble_le_of_le_nonpos {x u u' : ℝ} (h0 : u ≤ 0) (h2 : x ≤ u)
    (hhi : u * (1 - 0.0000000000000002) ≤ u') : roundDouble x ≤ u' :=
  (roundDouble_enclosure_of_nonpos h0 le_rfl h2 le_rfl hhi).2

theorem le_roundDouble_of_le_nonpos {x l l' : ℝ} (h0 : x ≤ 0) (h1 : l ≤ x)
    (hlo : l' ≤ l * (1 + 0.0000000000000002)) : l' ≤ roundDouble x :=
  (roundDouble_enclosure_of_nonpos h0 h1 le_rfl hlo le_rfl).1


/-! ## Saturation of the binary64 `erf` -/

theorem abs_roundDouble_le (x : ℝ) : |roundDouble x| ≤ |x| * (1 + 0.0000000000000002) := by
  obtain ⟨a, he, h⟩ : ∃ a : ℝ, a < 0.0000000000000002 ∧ |roundDouble x - x| ≤ |x| * a :=
    ⟨_, two_zpow_neg53_lt, abs_roundDouble_sub_le x⟩
  have h1 : |roundDouble x| ≤ |roundDouble x - x| + |x| := by
    have := abs_add (roundDouble x - x) x
    simpa using this
  have h2 : |x| * a ≤ |x| * 0.0000000000000002 :=
    mul_le_mul_of_nonneg_left he.le (abs_nonneg x)
  linarith

theorem abs_roundDouble_le_of_le {x B C : ℝ} (hx : |x| ≤ B)
    (hB : B * (1 + 0.0000000000000002) ≤ C) : |roundDouble x| ≤ C :=
  (abs_roundDouble_le x).trans
    ((mul_le_mul_of_nonneg_right hx (by norm_num)).trans hB)

namespace Binary64

theorem erf_eq (value : ℝ) :
    erf value = (if value ≥ 0 then 1 else -1) * roundDouble (1 - erfTail |value|) := rfl

theorem abs_hornerStep_le {h t a B Bt Ba C : ℝ} (hh : |h| ≤ B) (ht : |t| ≤ Bt) (ha : |a| ≤ Ba)
    (hB : (B * Bt * (1 + 0.0000000000000002) + Ba) * (1 + 0.0000000000000002) ≤ C) :
    |hornerStep h t a| ≤ C := by
  have hB0 : 0 ≤ B := (abs_nonneg h).trans hh
  have hprod : |h * t| ≤ B * Bt := by
    rw [abs_mul]
    exact mul_le_mul hh ht (abs_nonneg t) hB0
  have h1 : |roundDouble (h * t)| ≤ B * Bt * (1 + 0.0000000000000002) :=
    abs_roundDouble_le_of_le hprod le_rfl
  have h2 : |roundDouble (h * t) + a| ≤ B * Bt * (1 + 0.0000000000000002) + Ba :=
    (abs_add _ _).trans (add_le_add h1 ha)
  exact abs_roundDouble_le_of_le h2 hB

theorem abs_coefficients :
    |A1| ≤ 0.2549 ∧ |A2| ≤ 0.2845 ∧ |A3| ≤ 1.4215 ∧ |A4| ≤ 1.4532 ∧ |A5| ≤ 1.0615 := by
  refine ⟨?_, ?_, ?_, ?_, ?_⟩
  · exact abs_roundDouble_le_of_le (B := 0.25483) (by rw [abs_le]; constructor <;> norm_num)
      (by norm_num)
  · exact abs_roundDouble_le_of_le (B := 0.284497) (by rw [abs_le]; constructor <;> norm_num)
      (by norm_num)
  · exact abs_roundDouble_le_of_le (B := 1.42142) (by rw [abs_le]; constructor <;> norm_num)
      (by norm_num)
  · exact abs_roundDouble_le_of_le (B := 1.45316) (by rw [abs_le]; constructor <;> norm_num)
      (by norm_num)
  · exact abs_roundDouble_le_of_le (B := 1.06141) (by rw [abs_le]; constructor <;> norm_num)
      (by norm_num)

theorem P_bounds : 0.32759 ≤ P ∧ P ≤ 0.3276 :=
  roundDouble_enclosure_of_nonneg (x := 0.3275911) (l := 0.3275911) (u := 0.3275911)
    (by norm_num) le_rfl le_rfl (by norm_num) (by norm_num)

theorem erfArg_bounds {v : ℝ} (hv : 6.25 ≤ v) : 0 ≤ erfArg v ∧ erfArg v ≤ 0.33 := by
  have hP := P_bounds
  have hPv : 2.047 ≤ P * v := by nlinarith [hP.1]
  have h1 : 2.046 ≤ roundDouble (P * v) :=
    le_roundDouble_of_le (l := 2.047) (by norm_num) hPv (by norm_num)
  have h2 : 3.04 ≤ roundDouble (1 + roundDouble (P * v)) :=
    le_roundDouble_of_le (l := 3.046) (by norm_num) (by linarith) (by norm_num)
  have hpos : (0 : ℝ) < roundDouble (1 + roundDouble (P * v)) := by linarith
  have h3 : 1 / roundDouble (1 + roundDouble (P * v)) ≤ 1 / 3.04 :=
    one_div_le_one_div_of_le (by norm_num) h2
  have h0 : 0 ≤ 1 / roundDouble (1 + roundDouble (P * v)) := by positivity
  exact ⟨roundDouble_nonneg h0, roundDouble_le_of_le h0 h3 (by norm_num)⟩

theorem abs_erfPoly_le {t : ℝ} (h0 : 0 ≤ t) (h1 : t ≤ 0.33) : |erfPoly t| ≤ 0.1877 := by
  have hc := abs_coefficients
  have ht : |t| ≤ 0.33 := by rw [abs_of_nonneg h0]; exact h1
  have s1 : |hornerStep A5 t A4| ≤ 1.804 :=
    abs_hornerStep_le hc.2.2.2.2 ht hc.2.2.2.1 (by norm_num)
  have s2 : |hornerStep (hornerStep A5 t A4) t A3| ≤ 2.017 :=
    abs_hornerStep_le s1 ht hc.2.2.1 (by norm_num)
  have s3 : |hornerStep (hornerStep (hornerStep A5 t A4) t A3) t A2| ≤ 0.9502 :=
    abs_hornerStep_le s2 ht hc.2.1 (by norm_num)
  have s4 : |hornerStep (hornerStep (hornerStep (hornerStep A5 t A4) t A3) t A2) t A1| ≤
      0.5685 :=
    abs_hornerStep_le s3 ht hc.1 (by norm_num)
  have hprod : |hornerStep (hornerStep (hornerStep (hornerStep A5 t A4) t A3) t A2) t A1 * t| ≤
      0.5685 * 0.33 := by
    rw [abs_mul]
    exact mul_le_mul s4 ht (abs_nonneg t) (by norm_num)
  exact abs_roundDouble_le_of_le hprod (by norm_num)

theorem real_exp_neg_39_le : Real.exp (-39) ≤ 0.000000000000000012 := by
  have h1 : (2.7182818283 : ℝ) < Real.exp 1 := Real.exp_one_gt_d9
  have h39 : Real.exp 39 = Real.exp 1 ^ 39 := by
    rw [← Real.exp_nat_mul]
    norm_num
  have hpow : (2.7182818283 : ℝ) ^ 39 ≤ Real.exp 1 ^ 39 :=
    pow_le_pow_left₀ (by norm_num) h1.le 39
  have hbig : (86000000000000000 : ℝ) ≤ Real.exp 39 := by
    rw [h39]
    exact le_trans (by norm_num) hpow
  rw [Real.exp_neg]
  calc (Real.exp 39)⁻¹ ≤ (86000000000000000 : ℝ)⁻¹ := inv_anti₀ (by norm_num) hbig
    _ ≤ 0.000000000000000012 := by norm_num

theorem exp_neg_sq_bounds {v : ℝ} (hv : 6.25 ≤ v) :
    0 ≤ exp (roundDouble (-v * v)) ∧ exp (roundDouble (-v * v)) ≤ 0.0000000000000000121 := by
  have hvv : -v * v ≤ -39.0625 := by nlinarith
  have hz : roundDouble (-v * v) ≤ -39 :=
    roundDouble_le_of_le_nonpos (u := -39.0625) (by norm_num) hvv (by norm_num)
  have he : Real.exp (roundDouble (-v * v)) ≤ 0.000000000000000012 :=
    (Real.exp_le_exp.mpr hz).trans real_exp_neg_39_le
  exact ⟨roundDouble_nonneg (Real.exp_pos _).le,
    roundDouble_le_of_le (Real.exp_pos _).le he (by norm_num)⟩

/-- For `v ≥ 6.25` the subtracted quantity is below a quarter of a unit in the last place
of `1`. -/
theorem abs_erfTail_lt {v : ℝ} (hv : 6.25 ≤ v) : |erfTail v| < (2 : ℝ) ^ (-54 : ℤ) := by
  have ht := erfArg_bounds hv
  have hp := abs_erfPoly_le ht.1 ht.2
  have hE := exp_neg_sq_bounds hv
  have hprod : |erfPoly (erfArg v) * exp (roundDouble (-v * v))| ≤
      0.1877 * 0.0000000000000000121 := by
    rw [abs_mul, abs_of_nonneg hE.1]
    exact mul_le_mul hp hE.2 hE.1 (by norm_num)
  have h := abs_roundDouble_le_of_le (C := 0.0000000000000000023) hprod (by norm_num)
  have h54 : (0.0000000000000000023 : ℝ) < (2 : ℝ) ^ (-54 : ℤ) := by norm_num
  exact lt_of_le_of_lt h h54

theorem erf_of_ge {value : ℝ} (h : 6.25 ≤ value) : erf value = 1 := by
  have h0 : value ≥ 0 := by linarith
  rw [erf_eq, if_pos h0, abs_of_nonneg h0, roundDouble_one_sub (abs_erfTail_lt h), one_mul]

theorem erf_of_le {value : ℝ} (h : value ≤ -6.25) : erf value = -1 := by
  have h0 : ¬ value ≥ 0 := by
    intro hc
    linarith
  have hv : 6.25 ≤ |value| := by
    rw [abs_of_neg (by linarith)]
    linarith
  rw [erf_eq, if_neg h0, roundDouble_one_sub (abs_erfTail_lt hv), mul_one]

theorem sqrt_two_enclosure : 1.414213 ≤ sqrt 2 ∧ sqrt 2 ≤ 1.414214 :=
  roundDouble_enclosure_of_nonneg (l := 1.4142135) (u := 1.4142136) (by norm_num)
    OptionsPricing.sqrt_two_bounds.1 OptionsPricing.sqrt_two_bounds.2 (by norm_num) (by norm_num)

/-- From `8.84` on, the binary64 distribution function is exactly `1`. -/
theorem cumulativeStandardNormal_of_ge {x : ℝ} (hx : 8.84 ≤ x) :
    cumulativeStandardNormal x = 1 := by
  have hs := sqrt_two_enclosure
  have hq : 6.2508 ≤ x / sqrt 2 := by
    rw [le_div_iff₀ (by linarith)]
    nlinarith [hs.2]
  have ha : 6.25 ≤ roundDouble (x / sqrt 2) :=
    le_roundDouble_of_le (l := 6.2508) (by norm_num) hq (by norm_num)
  rw [cumulativeStandardNormal, erf_of_ge ha]
  norm_num
  rw [roundDouble_two]
  norm_num
  exact roundDouble_one

/-- Up to `-8.84`, the binary64 distribution function is exactly `0`. -/
theorem cumulativeStandardNormal_of_le {x : ℝ} (hx : x ≤ -8.84) :
    cumulativeStandardNormal x = 0 := by
  have hs := sqrt_two_enclosure
  have hq : x / sqrt 2 ≤ -6.2508 := by
    rw [div_le_iff₀ (by linarith)]
    nlinarith [hs.2]
  have ha : roundDouble (x / sqrt 2) ≤ -6.25 :=
    roundDouble_le_of_le_nonpos (u := -6.2508) (by norm_num) hq (by norm_num)
  rw [cumulativeStandardNormal, erf_of_le ha]
  norm_num
  rw [roundDouble_zero]
  norm_num
  exact roundDouble_zero

/-! ## The binary64 pricer where the distribution function saturates -/

theorem roundDouble_pos {x : ℝ} (hx : 0 < x) : 0 < roundDouble x :=
  lt_of_lt_of_le (by nlinarith) (le_roundDouble_of_le hx.le le_rfl le_rfl)

theorem sqrt_one : sqrt 1 = 1 := by
  rw [sqrt, Real.sqrt_one, roundDouble_one]

theorem log_one : log 1 = 0 := by
  rw [log, Real.log_one, roundDouble_zero]

/-- At the money, with a rate of at least `0.0999` and a volatility of at most `0.0100001`
over one year, `d1` is at least `9.9`. -/
theorem d1_atm_ge {S r σ : ℝ} (hS : 0 < S) (hr : 0.0999 ≤ r) (hσ0 : 0 < σ)
    (hσ : σ ≤ 0.0100001) : 9.9 ≤ d1 S S r σ 1 := by
  have hss : 0 ≤ roundDouble (σ * σ) := roundDouble_nonneg (by positivity)
  have hhs : 0 ≤ roundDouble (roundDouble (σ * σ) / 2) := roundDouble_nonneg (by positivity)
  have hrr : 0.09989 ≤ roundDouble (r + roundDouble (roundDouble (σ * σ) / 2)) :=
    le_roundDouble_of_le (l := 0.0999) (by norm_num) (by linarith) (by norm_num)
  have hm : 0.09988 ≤
      roundDouble (roundDouble (r + roundDouble (roundDouble (σ * σ) / 2)) * 1) :=
    le_roundDouble_of_le (l := 0.09989) (by norm_num) (by linarith) (by norm_num)
  have hnum : 0.09987 ≤ roundDouble (log (roundDouble (S / S)) +
      roundDouble (roundDouble (r + roundDouble (roundDouble (σ * σ) / 2)) * 1)) := by
    rw [div_self hS.ne', roundDouble_one, log_one, zero_add]
    exact le_roundDouble_of_le (l := 0.09988) (by norm_num) hm (by norm_num)
  have hden0 : 0 < roundDouble (σ * sqrt 1) := by
    rw [sqrt_one, mul_one]
    exact roundDouble_pos hσ0
  have hden : roundDouble (σ * sqrt 1) ≤ 0.0100002 := by
    rw [sqrt_one, mul_one]
    exact roundDouble_le_of_le hσ0.le hσ (by norm_num)
  have hquot : 9.98 ≤ roundDouble (log (roundDouble (S / S)) +
      roundDouble (roundDouble (r + roundDouble (roundDouble (σ * σ) / 2)) * 1)) /
        roundDouble (σ * sqrt 1) := by
    rw [le_div_iff₀ hden0]
    nlinarith
  rw [d1]
  exact le_roundDouble_of_le (l := 9.98) (by norm_num) hquot (by norm_num)

theorem volatility_001_bounds :
    0.0099999 ≤ roundDouble 0.01 ∧ roundDouble 0.01 ≤ 0.0100001 :=
  roundDouble_enclosure_of_nonneg (l := 0.01) (u := 0.01) (by norm_num) le_rfl le_rfl
    (by norm_num) (by norm_num)

theorem rate_010_bounds : 0.0999 ≤ roundDouble 0.10 ∧ roundDouble 0.10 ≤ 0.1001 :=
  roundDouble_enclosure_of_nonneg (l := 0.10) (u := 0.10) (by norm_num) le_rfl le_rfl
    (by norm_num) (by norm_num)

/-- In binary64, at spot = strike = 100, rate 0.10, volatility 0.01 and one year, the call
delta is exactly `1` and the put delta exactly `0`. -/
theorem delta_atm_saturated :
    (blackScholesOptionPricing 100 100 (roundDouble 0.10) (roundDouble 0.01) 1 true).delta = 1 ∧
      (blackScholesOptionPricing 100 100 (roundDouble 0.10) (roundDouble 0.01) 1 false).delta =
        0 := by
  have hσ := volatility_001_bounds
  have hd : 9.9 ≤ d1 100 100 (roundDouble 0.10) (roundDouble 0.01) 1 :=
    d1_atm_ge (by norm_num) rate_010_bounds.1 (by linarith [hσ.1]) hσ.2
  have hN := cumulativeStandardNormal_of_ge (show (8.84 : ℝ) ≤ _ from le_trans (by norm_num) hd)
  simp only [blackScholesOptionPricing, if_true, Bool.false_eq_true, if_false, hN, sub_self,
    roundDouble_zero, and_self]

/-- At the money, with a rate of at most `-0.0999` and a volatility of at most `0.0100001`
over one year, `d1` is at most `-9.9`. -/
theorem d1_atm_le {S r σ : ℝ} (hS : 0 < S) (hr : r ≤ -0.0999) (hσ0 : 0 < σ)
    (hσ : σ ≤ 0.0100001) : d1 S S r σ 1 ≤ -9.9 := by
  have hss : roundDouble (σ * σ) ≤ 0.000101 :=
    roundDouble_le_of_le (u := 0.0100001 * 0.0100001) (by positivity)
      (mul_le_mul hσ hσ hσ0.le (by norm_num)) (by norm_num)
  have hss0 : 0 ≤ roundDouble (σ * σ) := roundDouble_nonneg (by positivity)
  have hhs : roundDouble (roundDouble (σ * σ) / 2) ≤ 0.000051 :=
    roundDouble_le_of_le (u := 0.000101 / 2) (by positivity) (by linarith) (by norm_num)
  have hrr : roundDouble (r + roundDouble (roundDouble (σ * σ) / 2)) ≤ -0.0998 :=
    roundDouble_le_of_le_nonpos (u := -0.099849) (by norm_num) (by linarith) (by norm_num)
  have hm : roundDouble (roundDouble (r + roundDouble (roundDouble (σ * σ) / 2)) * 1) ≤
      -0.0997 :=
    roundDouble_le_of_le_nonpos (u := -0.0998) (by norm_num) (by linarith) (by norm_num)
  have hnum : roundDouble (log (roundDouble (S / S)) +
      roundDouble (roundDouble (r + roundDouble (roundDouble (σ * σ) / 2)) * 1)) ≤ -0.0996 := by
    rw [div_self hS.ne', roundDouble_one, log_one, zero_add]
    exact roundDouble_le_of_le_nonpos (u := -0.0997) (by norm_num) hm (by norm_num)
  have hden0 : 0 < roundDouble (σ * sqrt 1) := by
    rw [sqrt_one, mul_one]
    exact roundDouble_pos hσ0
  have hden : roundDouble (σ * sqrt 1) ≤ 0.0100002 := by
    rw [sqrt_one, mul_one]
    exact roundDouble_le_of_le hσ0.le hσ (by norm_num)
  have hquot : roundDouble (log (roundDouble (S / S)) +
      roundDouble (roundDouble (r + roundDouble (roundDouble (σ * σ) / 2)) * 1)) /
        roundDouble (σ * sqrt 1) ≤ -9.95 := by
    rw [div_le_iff₀ hden0]
    nlinarith
  rw [d1]
  exact roundDouble_le_of_le_nonpos (u := -9.95) (by norm_num) hquot (by norm_num)

theorem rate_neg_010_le : roundDouble (-0.10) ≤ -0.0999 :=
  roundDouble_le_of_le_nonpos (u := -0.10) (by norm_num) le_rfl (by norm_num)

theorem roundDouble_neg_one : roundDouble (-1) = -1 :=
  roundDouble_eq_self (-1) 0 (by norm_num) (by norm_num)

/-- In binary64, at spot = strike = 100, rate -0.10, volatility 0.01 and one year, the call
delta is exactly `0` and the put delta exactly `-1`. -/
theorem delta_atm_saturated_low :
    (blackScholesOptionPricing 100 100 (roundDouble (-0.10)) (roundDouble 0.01) 1 true).delta =
        0 ∧
      (blackScholesOptionPricing 100 100 (roundDouble (-0.10)) (roundDouble 0.01) 1
        false).delta = -1 := by
  have hσ := volatility_001_bounds
  have hd : d1 100 100 (roundDouble (-0.10)) (roundDouble 0.01) 1 ≤ -9.9 :=
    d1_atm_le (by norm_num) rate_neg_010_le (by linarith [hσ.1]) hσ.2
  have hN := cumulativeStandardNormal_of_le (show _ ≤ (-8.84 : ℝ) from le_trans hd (by norm_num))
  simp only [blackScholesOptionPricing, if_true, Bool.false_eq_true, if_false, hN, zero_sub,
    roundDouble_neg_one, and_self]

theorem real_log_le_of_le_exp_neg {q y : ℝ} (hq : 0 < q) (h0 : 0 ≤ y) (h1 : y ≤ 1)
    (h : q ≤ 1 - y + y ^ 2 / 2 - y ^ 3 / 6 + y ^ 4 / 24 - y ^ 5 / 100) : Real.log q ≤ -y := by
  rw [Real.log_le_iff_le_exp hq]
  exact h.trans (exp_neg_enclosure h0 h1).1

/-- In binary64, at spot 100, strike 150, rate 0.05, volatility 0.04 and one year,
`d1` is below `-8.84`. -/
theorem d1_out_of_the_money_le :
    d1 100 150 (roundDouble 0.05) (roundDouble 0.04) 1 ≤ -8.84 := by
  have hσ : 0.0399999 ≤ roundDouble 0.04 ∧ roundDouble 0.04 ≤ 0.0400001 :=
    roundDouble_enclosure_of_nonneg (l := 0.04) (u := 0.04) (by norm_num) le_rfl le_rfl
      (by norm_num) (by norm_num)
  have hr : 0.0499999 ≤ roundDouble 0.05 ∧ roundDouble 0.05 ≤ 0.0500001 :=
    roundDouble_enclosure_of_nonneg (l := 0.05) (u := 0.05) (by norm_num) le_rfl le_rfl
      (by norm_num) (by norm_num)
  have hσ0 : 0 < roundDouble 0.04 := by linarith [hσ.1]
  have hq : 0.6666 ≤ roundDouble (100 / 150) ∧ roundDouble (100 / 150) ≤ 0.66667 :=
    roundDouble_enclosure_of_nonneg (l := 100 / 150) (u := 100 / 150) (by norm_num) le_rfl
      le_rfl (by norm_num) (by norm_num)
  have hlogr : Real.log (roundDouble (100 / 150)) ≤ -0.4054 :=
    real_log_le_of_le_exp_neg (by linarith [hq.1]) (by norm_num) (by norm_num)
      (le_trans hq.2 (by norm_num))
  have hlg : log (roundDouble (100 / 150)) ≤ -0.40539 :=
    roundDouble_le_of_le_nonpos (u := -0.4054) (by norm_num) hlogr (by norm_num)
  have hss : roundDouble (roundDouble 0.04 * roundDouble 0.04) ≤ 0.0016001 :=
    roundDouble_le_of_le (u := 0.0400001 * 0.0400001) (by positivity)
      (mul_le_mul hσ.2 hσ.2 hσ0.le (by norm_num)) (by norm_num)
  have hss0 : 0 ≤ roundDouble (roundDouble 0.04 * roundDouble 0.04) :=
    roundDouble_nonneg (by positivity)
  have hhs : roundDouble (roundDouble (roundDouble 0.04 * roundDouble 0.04) / 2) ≤ 0.0008001 :=
    roundDouble_le_of_le (u := 0.0016001 / 2) (by positivity) (by linarith) (by norm_num)
  have hhs0 : 0 ≤ roundDouble (roundDouble (roundDouble 0.04 * roundDouble 0.04) / 2) :=
    roundDouble_nonneg (by positivity)
  have hrr : roundDouble (roundDouble 0.05 +
      roundDouble (roundDouble (roundDouble 0.04 * roundDouble 0.04) / 2)) ≤ 0.05081 :=
    roundDouble_le_of_le (u := 0.0508002) (by linarith [hr.1]) (by linarith [hr.2])
      (by norm_num)
  have hrr0 : 0 ≤ roundDouble (roundDouble 0.05 +
      roundDouble (roundDouble (roundDouble 0.04 * roundDouble 0.04) / 2)) :=
    roundDouble_nonneg (by linarith [hr.1])
  have hm : roundDouble (roundDouble (roundDouble 0.05 +
      roundDouble (roundDouble (roundDouble 0.04 * roundDouble 0.04) / 2)) * 1) ≤ 0.05082 :=
    roundDouble_le_of_le (u := 0.05081) (by linarith) (by linarith) (by norm_num)
  have hnum : roundDouble (log (roundDouble (100 / 150)) +
      roundDouble (roundDouble (roundDouble 0.05 +
        roundDouble (roundDouble (roundDouble 0.04 * roundDouble 0.04) / 2)) * 1)) ≤
      -0.35456 :=
    roundDouble_le_of_le_nonpos (u := -0.35457) (by norm_num) (by linarith) (by norm_num)
  have hden0 : 0 < roundDouble (roundDouble 0.04 * sqrt 1) := by
    rw [sqrt_one, mul_one]
    exact roundDouble_pos hσ0
  have hden : roundDouble (roundDouble 0.04 * sqrt 1) ≤ 0.0400002 := by
    rw [sqrt_one, mul_one]
    exact roundDouble_le_of_le hσ0.le hσ.2 (by norm_num)
  have hquot : roundDouble (log (roundDouble (100 / 150)) +
      roundDouble (roundDouble (roundDouble 0.05 +
        roundDouble (roundDouble (roundDouble 0.04 * roundDouble 0.04) / 2)) * 1)) /
        roundDouble (roundDouble 0.04 * sqrt 1) ≤ -8.86 := by
    rw [div_le_iff₀ hden0]
    nlinarith
  rw [d1]
  exact roundDouble_le_of_le_nonpos (u := -8.86) (by norm_num) hquot (by norm_num)

/-- In binary64, at spot 100, strike 150, rate 0.05, volatility 0.04 and one year, the
distribution function at `d1` is exactly `0` and so is vega, for the call and for the put. -/
theorem vega_out_of_the_money_zero :
    cumulativeStandardNormal (d1 100 150 (roundDouble 0.05) (roundDouble 0.04) 1) = 0 ∧
      (blackScholesOptionPricing 100 150 (roundDouble 0.05) (roundDouble 0.04) 1 true).vega =
        0 ∧
      (blackScholesOptionPricing 100 150 (roundDouble 0.05) (roundDouble 0.04) 1 false).vega =
        0 := by
  have hN := cumulativeStandardNormal_of_le d1_out_of_the_money_le
  simp only [blackScholesOptionPricing, if_true, Bool.false_eq_true, if_false, hN, mul_zero,
    zero_mul, roundDouble_zero, and_self]

/-! ## The binary64 pricer where the distribution function is quantised -/

end Binary64

namespace Binary64

theorem coefficient_bounds :
    (0.254829591999 ≤ A1 ∧ A1 ≤ 0.254829592001) ∧
      (-0.284496736001 ≤ A2 ∧ A2 ≤ -0.284496735999) ∧
      (1.421413740999 ≤ A3 ∧ A3 ≤ 1.421413741001) ∧
      (-1.453152027001 ≤ A4 ∧ A4 ≤ -1.453152026999) ∧
      (1.061405428999 ≤ A5 ∧ A5 ≤ 1.061405429001) ∧
      (0.327591099999 ≤ P ∧ P ≤ 0.327591100001) := by
  refine ⟨?_, ?_, ?_, ?_, ?_, ?_⟩
  · exact roundDouble_enclosure_of_nonneg (l := 0.254829592) (u := 0.254829592)
      (by norm_num) le_rfl le_rfl (by norm_num) (by norm_num)
  · exact roundDouble_enclosure_of_nonpos (l := -0.284496736) (u := -0.284496736)
      (by norm_num) le_rfl le_rfl (by norm_num) (by norm_num)
  · exact roundDouble_enclosure_of_nonneg (l := 1.421413741) (u := 1.421413741)
      (by norm_num) le_rfl le_rfl (by norm_num) (by norm_num)
  · exact roundDouble_enclosure_of_nonpos (l := -1.453152027) (u := -1.453152027)
      (by norm_num) le_rfl le_rfl (by norm_num) (by norm_num)
  · exact roundDouble_enclosure_of_nonneg (l := 1.061405429) (u := 1.061405429)
      (by norm_num) le_rfl le_rfl (by norm_num) (by norm_num)
  · exact roundDouble_enclosure_of_nonneg (l := 0.3275911) (u := 0.3275911)
      (by norm_num) le_rfl le_rfl (by norm_num) (by norm_num)

end Binary64

theorem roundNearestEven_le_of_le {y : ℝ} {N : ℤ} (h : y ≤ N) : roundNearestEven y ≤ N := by
  rcases h.eq_or_lt with heq | hlt
  · rw [heq, roundNearestEven_intCast]
  · have hf : ⌊y⌋ < N := Int.floor_lt.mpr hlt
    unfold roundNearestEven
    split_ifs <;> omega

theorem le_roundNearestEven_of_le {y : ℝ} {N : ℤ} (h : (N : ℝ) ≤ y) : N ≤ roundNearestEven y := by
  have hf : N ≤ ⌊y⌋ := Int.le_floor.mpr h
  unfold roundNearestEven
  split_ifs <;> omega

theorem roundDouble_nonpos {x : ℝ} (hx : x ≤ 0) : roundDouble x ≤ 0 :=
  (roundDouble_enclosure_of_nonpos le_rfl le_rfl hx (le_refl _) (by norm_num)).2

/-- Rounding does not cross a power of two: a real of absolute value at most `2 ^ j` rounds to
a number of absolute value at most `2 ^ j`. -/
theorem abs_roundDouble_le_two_zpow {x : ℝ} {j : ℤ} (h : |x| ≤ (2 : ℝ) ^ j) :
    |roundDouble x| ≤ (2 : ℝ) ^ j := by
  have h2 : (2 : ℝ) ≠ 0 := by norm_num
  rcases eq_or_ne x 0 with rfl | hx0
  · rw [roundDouble_zero, abs_zero]
    positivity
  have hpos : 0 < |x| := abs_pos.mpr hx0
  rcases h.eq_or_lt with heq | hlt
  · have hx : x = (1 : ℤ) * (2 : ℝ) ^ j ∨ x = (-1 : ℤ) * (2 : ℝ) ^ j := by
      rcases abs_cases x with ⟨ha, _⟩ | ⟨ha, _⟩
      · left; push_cast; linarith
      · right; push_cast; linarith
    rcases hx with hx | hx
    · rw [roundDouble_eq_self 1 j (by norm_num) hx, heq]
    · rw [roundDouble_eq_self (-1) j (by norm_num) hx, heq]
  · have hlog : Int.log 2 |x| < j := by
      rw [← Int.lt_zpow_iff_log_lt (by norm_num) hpos]
      simpa using hlt
    obtain ⟨n, hn⟩ : ∃ n : ℕ, (n : ℤ) = j - (Int.log 2 |x| - 52) :=
      ⟨(j - (Int.log 2 |x| - 52)).toNat, by omega⟩
    have hu : ulp x = (2 : ℝ) ^ (Int.log 2 |x| - 52) := rfl
    have hup := ulp_pos x
    have hM : (((2 : ℤ) ^ n : ℤ) : ℝ) * ulp x = (2 : ℝ) ^ j := by
      push_cast
      rw [hu, ← zpow_natCast, hn, ← zpow_add₀ h2]
      congr 1
      ring
    have hq : |x / ulp x| ≤ (((2 : ℤ) ^ n : ℤ) : ℝ) := by
      rw [abs_div, abs_of_pos hup, div_le_iff₀ hup, hM]
      exact h
    rw [abs_le] at hq
    have h1 : roundNearestEven (x / ulp x) ≤ (2 : ℤ) ^ n := roundNearestEven_le_of_le hq.2
    have h3 : -((2 : ℤ) ^ n) ≤ roundNearestEven (x / ulp x) :=
      le_roundNearestEven_of_le (by push_cast; push_cast at hq; exact hq.1)
    have h4 : |(roundNearestEven (x / ulp x) : ℝ)| ≤ (((2 : ℤ) ^ n : ℤ) : ℝ) := by
      rw [abs_le]
      constructor
      · exact_mod_cast h3
      · exact_mod_cast h1
    rw [roundDouble, abs_mul, abs_of_pos hup, ← hM]
    exact mul_le_mul_of_nonneg_right h4 hup.le

theorem roundDouble_le_two_zpow {x : ℝ} {j : ℤ} (h : x ≤ (2 : ℝ) ^ j) :
    roundDouble x ≤ (2 : ℝ) ^ j := by
  rcases le_or_lt x 0 with hx | hx
  · exact (roundDouble_nonpos hx).trans (by positivity)
  · exact (le_abs_self _).trans (abs_roundDouble_le_two_zpow (by rwa [abs_of_pos hx]))

theorem neg_two_zpow_le_roundDouble {x : ℝ} {j : ℤ} (h : -(2 : ℝ) ^ j ≤ x) :
    -(2 : ℝ) ^ j ≤ roundDouble x := by
  rcases le_or_lt 0 x with hx | hx
  · exact le_trans (by simp; positivity) (roundDouble_nonneg hx)
  · have := abs_roundDouble_le_two_zpow (x := x) (j := j) (by rw [abs_of_neg hx]; linarith)
    exact (abs_le.mp this).1

/-- A real that is at least a power of two rounds to a number that is at least that power. -/
theorem two_zpow_le_roundDouble {x : ℝ} {j : ℤ} (h : (2 : ℝ) ^ j ≤ x) :
    (2 : ℝ) ^ j ≤ roundDouble x := by
  have h2 : (2 : ℝ) ≠ 0 := by norm_num
  have hx : 0 < x := lt_of_lt_of_le (by positivity) h
  have hpos : 0 < |x| := abs_pos.mpr hx.ne'
  have hlog : j ≤ Int.log 2 |x| := by
    rw [← Int.zpow_le_iff_le_log (by norm_num) hpos, abs_of_pos hx]
    simpa using h
  have hle : (2 : ℝ) ^ Int.log 2 |x| ≤ x := by
    have := Int.zpow_log_le_self (b := 2) (by norm_num) hpos
    rw [abs_of_pos hx] at this ⊢
    simpa using this
  have hu : ulp x = (2 : ℝ) ^ (Int.log 2 |x| - 52) := rfl
  have hup := ulp_pos x
  have hM : (((2 : ℤ) ^ 52 : ℤ) : ℝ) * ulp x = (2 : ℝ) ^ Int.log 2 |x| := by
    rw [hu, zpow_sub₀ h2]
    norm_num
    field_simp
  have hq : (((2 : ℤ) ^ 52 : ℤ) : ℝ) ≤ x / ulp x := by
    rw [le_div_iff₀ hup, hM]
    exact hle
  have h1 : ((2 : ℤ) ^ 52 : ℤ) ≤ roundNearestEven (x / ulp x) := le_roundNearestEven_of_le hq
  have h3 : (((2 : ℤ) ^ 52 : ℤ) : ℝ) ≤ (roundNearestEven (x / ulp x) : ℝ) := by exact_mod_cast h1
  calc (2 : ℝ) ^ j ≤ (2 : ℝ) ^ Int.log 2 |x| := zpow_le_zpow_right₀ (by norm_num) hlog
    _ = (((2 : ℤ) ^ 52 : ℤ) : ℝ) * ulp x := hM.symm
    _ ≤ roundDouble x := mul_le_mul_of_nonneg_right h3 hup.le

theorem roundDouble_le_one {x : ℝ} (h : x ≤ 1) : roundDouble x ≤ 1 := by
  have := roundDouble_le_two_zpow (x := x) (j := 0) (by simpa using h)
  simpa using this

theorem one_le_roundDouble {x : ℝ} (h : 1 ≤ x) : 1 ≤ roundDouble x := by
  have := two_zpow_le_roundDouble (x := x) (j := 0) (by simpa using h)
  simpa using this

theorem roundDouble_le_two {x : ℝ} (h : x ≤ 2) : roundDouble x ≤ 2 := by
  have := roundDouble_le_two_zpow (x := x) (j := 1) (by simpa using h)
  simpa using this

theorem neg_one_le_roundDouble {x : ℝ} (h : -1 ≤ x) : -1 ≤ roundDouble x := by
  have := neg_two_zpow_le_roundDouble (x := x) (j := 0) (by simpa using h)
  simpa using this

theorem abs_roundDouble_sub_le_of_abs_le {x B : ℝ} (hx : |x| ≤ B) :
    |roundDouble x - x| ≤ B * 0.0000000000000002 := by
  obtain ⟨a, he, h⟩ : ∃ a : ℝ, a < 0.0000000000000002 ∧ |roundDouble x - x| ≤ |x| * a :=
    ⟨_, two_zpow_neg53_lt, abs_roundDouble_sub_le x⟩
  have h1 : |x| * a ≤ |x| * 0.0000000000000002 :=
    mul_le_mul_of_nonneg_left he.le (abs_nonneg x)
  have h2 : |x| * 0.0000000000000002 ≤ B * 0.0000000000000002 :=
    mul_le_mul_of_nonneg_right hx (by norm_num)
  linarith

theorem abs_mul_add_le {H t A B Ba : ℝ} (ht0 : 0 ≤ t) (ht1 : t ≤ 1) (hH : |H| ≤ B)
    (hA : |A| ≤ Ba) : |H * t + A| ≤ B + Ba := by
  have h1 : |H * t| ≤ B := by
    rw [abs_mul, abs_of_nonneg ht0]
    calc |H| * t ≤ |H| * 1 := mul_le_mul_of_nonneg_left ht1 (abs_nonneg H)
      _ = |H| := mul_one _
      _ ≤ B := hH
  exact (abs_add _ _).trans (add_le_add h1 hA)

/-- The fourth-degree factor of the polynomial in `erf` is at least `0.2` everywhere. -/
theorem erfPoly_factor_ge (t : ℝ) :
    0.2 ≤ (((A5 * t + A4) * t + A3) * t + A2) * t + A1 := by
  simp only [A1, A2, A3, A4, A5]
  nlinarith [sq_nonneg (t - 0.13), sq_nonneg (t * (t - 0.68)), sq_nonneg t, sq_nonneg (t * t)]

namespace Binary64

/-- One step of the evaluation of the polynomial in binary64 against the exact step. -/
theorem hornerStep_sub_le {h H t a A δ : ℝ} (ht0 : 0 ≤ t) (ht1 : t ≤ 1) (hh : |h - H| ≤ δ)
    (hδ : δ ≤ 0.000000001) (hH : |H| ≤ 5) (ha : |a - A| ≤ 0.000000000001) (hA : |A| ≤ 2) :
    |hornerStep h t a - (H * t + A)| ≤ δ + 0.000000000002 := by
  have hδ0 : 0 ≤ δ := (abs_nonneg _).trans hh
  have hp : |h * t - H * t| ≤ δ := by
    rw [← sub_mul, abs_mul, abs_of_nonneg ht0]
    calc |h - H| * t ≤ |h - H| * 1 := mul_le_mul_of_nonneg_left ht1 (abs_nonneg _)
      _ = |h - H| := mul_one _
      _ ≤ δ := hh
  have hHt : |H * t| ≤ 5 := by
    rw [abs_mul, abs_of_nonneg ht0]
    calc |H| * t ≤ |H| * 1 := mul_le_mul_of_nonneg_left ht1 (abs_nonneg H)
      _ = |H| := mul_one _
      _ ≤ 5 := hH
  have hpB : |h * t| ≤ 6 := by
    have := abs_add (h * t - H * t) (H * t)
    rw [sub_add_cancel] at this
    linarith
  have hfp := abs_roundDouble_sub_le_of_abs_le hpB
  have hs : |roundDouble (h * t) + a - (H * t + A)| ≤ δ + 0.0000000000010012 := by
    have e : roundDouble (h * t) + a - (H * t + A) =
        (roundDouble (h * t) - h * t) + (h * t - H * t) + (a - A) := by ring
    rw [e]
    have := abs_add_three (roundDouble (h * t) - h * t) (h * t - H * t) (a - A)
    linarith
  have hsB : |roundDouble (h * t) + a| ≤ 8 := by
    have h1 := abs_add (roundDouble (h * t) + a - (H * t + A)) (H * t + A)
    rw [sub_add_cancel] at h1
    have h2 := abs_add (H * t) A
    linarith
  have hfs := abs_roundDouble_sub_le_of_abs_le hsB
  have e : hornerStep h t a - (H * t + A) =
      (roundDouble (roundDouble (h * t) + a) - (roundDouble (h * t) + a)) +
        (roundDouble (h * t) + a - (H * t + A)) := by
    rw [hornerStep]
    ring
  rw [e]
  have := abs_add (roundDouble (roundDouble (h * t) + a) - (roundDouble (h * t) + a))
    (roundDouble (h * t) + a - (H * t + A))
  linarith

theorem abs_coefficient_sub_le :
    |A1 - OptionsPricing.A1| ≤ 0.000000000001 ∧ |A2 - OptionsPricing.A2| ≤ 0.000000000001 ∧
      |A3 - OptionsPricing.A3| ≤ 0.000000000001 ∧ |A4 - OptionsPricing.A4| ≤ 0.000000000001 ∧
      |A5 - OptionsPricing.A5| ≤ 0.000000000001 := by
  have h := coefficient_bounds
  simp only [OptionsPricing.A1, OptionsPricing.A2, OptionsPricing.A3, OptionsPricing.A4,
    OptionsPricing.A5]
  refine ⟨?_, ?_, ?_, ?_, ?_⟩ <;> rw [abs_le] <;> constructor <;>
    linarith [h.1.1, h.1.2, h.2.1.1, h.2.1.2, h.2.2.1.1, h.2.2.1.2, h.2.2.2.1.1, h.2.2.2.1.2,
      h.2.2.2.2.1.1, h.2.2.2.2.1.2]

/-- On `[0, 1]` the polynomial of `erf` evaluated in binary64 lies in `[0, 0.99999999902]`. -/
theorem erfPoly_mem {t : ℝ} (ht0 : 0 ≤ t) (ht1 : t ≤ 1) :
    0 ≤ erfPoly t ∧ erfPoly t ≤ 0.99999999902 := by
  obtain ⟨c1, c2, c3, c4, c5⟩ := abs_coefficient_sub_le
  have b1 : |OptionsPricing.A1| ≤ 0.26 := by
    rw [OptionsPricing.A1, abs_le]; constructor <;> norm_num
  have b2 : |OptionsPricing.A2| ≤ 0.29 := by
    rw [OptionsPricing.A2, abs_le]; constructor <;> norm_num
  have b3 : |OptionsPricing.A3| ≤ 1.43 := by
    rw [OptionsPricing.A3, abs_le]; constructor <;> norm_num
  have b4 : |OptionsPricing.A4| ≤ 1.46 := by
    rw [OptionsPricing.A4, abs_le]; constructor <;> norm_num
  have b5 : |OptionsPricing.A5| ≤ 1.07 := by
    rw [OptionsPricing.A5, abs_le]; constructor <;> norm_num
  have B4 := abs_mul_add_le ht0 ht1 b5 b4
  have B3 := abs_mul_add_le ht0 ht1 B4 b3
  have B2 := abs_mul_add_le ht0 ht1 B3 b2
  have e4 := hornerStep_sub_le ht0 ht1 c5 (by norm_num) (b5.trans (by norm_num)) c4
    (b4.trans (by norm_num))
  have e3 := hornerStep_sub_le ht0 ht1 e4 (by norm_num) (B4.trans (by norm_num)) c3
    (b3.trans (by norm_num))
  have e2 := hornerStep_sub_le ht0 ht1 e3 (by norm_num) (B3.trans (by norm_num)) c2
    (b2.trans (by norm_num))
  have e1 := hornerStep_sub_le ht0 ht1 e2 (by norm_num) (B2.trans (by norm_num)) c1
    (b1.trans (by norm_num))
  have hfac := erfPoly_factor_ge t
  have hmono : OptionsPricing.erfPoly t ≤ 0.999999999 := by
    rw [← erfPoly_one]
    exact erfPoly_strictMono.monotone ht1
  rw [OptionsPricing.erfPoly] at hmono
  obtain ⟨h, hh⟩ : ∃ h : ℝ, h = hornerStep (hornerStep (hornerStep (hornerStep A5 t A4) t A3)
      t A2) t A1 := ⟨_, rfl⟩
  obtain ⟨H, hH⟩ : ∃ H : ℝ, H = (((OptionsPricing.A5 * t + OptionsPricing.A4) * t +
      OptionsPricing.A3) * t + OptionsPricing.A2) * t + OptionsPricing.A1 := ⟨_, rfl⟩
  rw [← hh, ← hH] at e1
  rw [← hH] at hfac hmono
  rw [erfPoly, ← hh]
  rw [abs_le] at e1
  have hpos : 0 ≤ h := by linarith [e1.1]
  constructor
  · exact roundDouble_nonneg (mul_nonneg hpos ht0)
  · have hle : h * t ≤ 0.99999999901 := by nlinarith [e1.2]
    exact roundDouble_le_of_le (mul_nonneg hpos ht0) hle (by norm_num)

theorem P_nonneg : 0 ≤ P := le_trans (by norm_num) P_bounds.1

theorem erfArg_mem_unit {v : ℝ} (hv : 0 ≤ v) : 0 ≤ erfArg v ∧ erfArg v ≤ 1 := by
  have h1 : 0 ≤ roundDouble (P * v) := roundDouble_nonneg (mul_nonneg P_nonneg hv)
  have h2 : 1 ≤ roundDouble (1 + roundDouble (P * v)) := one_le_roundDouble (by linarith)
  have h3 : 0 ≤ 1 / roundDouble (1 + roundDouble (P * v)) := by positivity
  have h4 : 1 / roundDouble (1 + roundDouble (P * v)) ≤ 1 := by
    rw [div_le_one (by linarith)]
    exact h2
  exact ⟨roundDouble_nonneg h3, roundDouble_le_one h4⟩

theorem exp_mem_unit {z : ℝ} (hz : z ≤ 0) : 0 ≤ exp z ∧ exp z ≤ 1 :=
  ⟨roundDouble_nonneg (Real.exp_pos z).le, roundDouble_le_one (Real.exp_le_one_iff.mpr hz)⟩

theorem erfTail_mem_unit {v : ℝ} (hv : 0 ≤ v) : 0 ≤ erfTail v ∧ erfTail v ≤ 1 := by
  have ht := erfArg_mem_unit hv
  have hp := erfPoly_mem ht.1 ht.2
  have hz : roundDouble (-v * v) ≤ 0 := roundDouble_nonpos (by nlinarith)
  have he := exp_mem_unit hz
  rw [erfTail]
  constructor
  · exact roundDouble_nonneg (mul_nonneg hp.1 he.1)
  · apply roundDouble_le_one
    calc erfPoly (erfArg v) * exp (roundDouble (-v * v)) ≤ 0.99999999902 * 1 :=
          mul_le_mul hp.2 he.2 he.1 (by norm_num)
      _ ≤ 1 := by norm_num

/-- In binary64 the value of `erf` lies in `[-1, 1]` at every argument. -/
theorem abs_erf_le_one (value : ℝ) : |erf value| ≤ 1 := by
  have ht := erfTail_mem_unit (abs_nonneg value)
  have hy0 : 0 ≤ roundDouble (1 - erfTail |value|) := roundDouble_nonneg (by linarith [ht.2])
  have hy1 : roundDouble (1 - erfTail |value|) ≤ 1 := roundDouble_le_one (by linarith [ht.1])
  rw [erf_eq, abs_mul, abs_of_nonneg hy0]
  split_ifs <;> simp <;> exact hy1

/-- In binary64 the value of `cumulativeStandardNormal` lies in `[0, 1]` at every argument. -/
theorem cumulativeStandardNormal_mem_unit (x : ℝ) :
    0 ≤ cumulativeStandardNormal x ∧ cumulativeStandardNormal x ≤ 1 := by
  have h := abs_le.mp (abs_erf_le_one (roundDouble (x / sqrt 2)))
  have h1 : 0 ≤ roundDouble (1 + erf (roundDouble (x / sqrt 2))) :=
    roundDouble_nonneg (by linarith [h.1])
  have h2 : roundDouble (1 + erf (roundDouble (x / sqrt 2))) ≤ 2 :=
    roundDouble_le_two (by linarith [h.2])
  rw [cumulativeStandardNormal]
  exact ⟨roundDouble_nonneg (by linarith), roundDouble_le_one (by linarith)⟩

end Binary64

/-! ## The day count -/

theorem truncateToInt_of_nonneg {x : ℝ} (h0 : 0 ≤ x) (h1 : x < 2147483648) :
    truncateToInt x = some ⌊x⌋ := by
  have hf0 : 0 ≤ ⌊x⌋ := Int.floor_nonneg.mpr h0
  have hf1 : ⌊x⌋ < 2147483648 := Int.floor_lt.mpr (by exact_mod_cast h1)
  simp only [truncateToInt, h0, if_true]
  rw [if_pos ⟨by omega, by omega⟩]

/-- The binary64 constant written `365.2425` in the source. -/
theorem roundDouble_days_per_year :
    roundDouble 365.2425 = 6425414011327611 / 17592186044416 := by
  have h := roundDouble_eq_of_close (x := 365.2425) (e := 8) (n := 6425414011327611)
    (by rw [abs_of_pos (by norm_num)]; norm_num) (by rw [abs_of_pos (by norm_num)]; norm_num)
    (by rw [abs_lt]; constructor <;> norm_num)
  rw [h]
  norm_num

/-- The product of the day count as computed in binary64 is within `1e-15` (relative) of the
exact product. -/
theorem abs_dayCount_sub_le {T : ℝ} (hT : 0 ≤ T) :
    |roundDouble (T * roundDouble 365.2425) - T * 365.2425| ≤
      T * 365.2425 * 0.000000000000001 := by
  rw [roundDouble_days_per_year]
  have hx : |T * (6425414011327611 / 17592186044416)| ≤ T * 365.2426 := by
    rw [abs_of_nonneg (by positivity)]
    nlinarith
  have h := abs_roundDouble_sub_le_of_abs_le hx
  rw [abs_le] at h ⊢
  constructor <;> nlinarith [h.1, h.2]

/-- Half a year: the product is `182.62125` up to rounding, below `183`. -/
theorem dayCount_half_year :
    roundDouble (0.5 * roundDouble 365.2425) = 6425414011327611 / 35184372088832 := by
  rw [roundDouble_days_per_year,
    show (0.5 : ℝ) * (6425414011327611 / 17592186044416) = 6425414011327611 / 35184372088832 by
      norm_num]
  exact roundDouble_eq_self 6425414011327611 (-45) (by norm_num) (by norm_num)

/-- The binary64 quotient `5.0 / 365.2425`. -/
theorem roundDouble_five_days :
    roundDouble (5 / roundDouble 365.2425) = 7891479664927048 / 576460752303423488 := by
  rw [roundDouble_days_per_year]
  have h := roundDouble_eq_of_close (x := 5 / (6425414011327611 / 17592186044416)) (e := -7)
    (n := 7891479664927048)
    (by rw [abs_of_pos (by norm_num)]; norm_num) (by rw [abs_of_pos (by norm_num)]; norm_num)
    (by rw [abs_lt]; constructor <;> norm_num)
  rw [h]
  norm_num

/-- Five days: the binary64 product of `5.0 / 365.2425` and `365.2425` is exactly `5`, while
the exact product of that quotient and `365.2425` is below `5`. -/
theorem dayCount_five_days :
    roundDouble (roundDouble (5 / roundDouble 365.2425) * roundDouble 365.2425) = 5 ∧
      ⌊roundDouble (5 / roundDouble 365.2425) * (365.2425 : ℝ)⌋ = 4 := by
  rw [roundDouble_five_days, roundDouble_days_per_year]
  constructor
  · have h := roundDouble_eq_of_close
      (x := 7891479664927048 / 576460752303423488 * (6425414011327611 / 17592186044416))
      (e := 2) (n := 5629499534213120)
      (by rw [abs_of_pos (by norm_num)]; norm_num) (by rw [abs_of_pos (by norm_num)]; norm_num)
      (by rw [abs_lt]; constructor <;> norm_num)
    rw [h]
    norm_num
  · rw [Int.floor_eq_iff]
    constructor <;> norm_num

/-! ## Claims -/

/-- C2 (amended): for every real `x` other than `0` the approximate error function is odd
and `cumulativeStandardNormal x + cumulativeStandardNormal (-x) = 1`; at `0` the code returns
`erf 0 = 1e-9`, so `cumulativeStandardNormal 0 = 0.5 + 5e-10`. -/
theorem cumulativeStandardNormal_symmetry_away_from_zero (x : ℝ) (hx : x ≠ 0) :
    (erf (-x) = -erf x ∧ cumulativeStandardNormal x + cumulativeStandardNormal (-x) = 1) ∧
      erf 0 = 0.000000001 ∧ cumulativeStandardNormal 0 = 0.5 + 0.0000000005 := by
  refine ⟨⟨erf_neg_of_ne_zero hx, cumulativeStandardNormal_add_neg hx⟩, erf_zero, ?_⟩
  rw [cumulativeStandardNormal_zero]
  norm_num

/-- Witness for C2 (amended) at `x = 1`. -/
theorem cumulativeStandardNormal_symmetry_away_from_zero_witness :
    (1 : ℝ) ≠ 0 ∧ cumulativeStandardNormal 1 + cumulativeStandardNormal (-1) = 1 :=
  ⟨one_ne_zero, (cumulativeStandardNormal_symmetry_away_from_zero 1 one_ne_zero).1.2⟩

/-- C2 (counterexample): at `x = 0` the symmetry fails, the error function is not odd and the
value at `0` is not `0.5`. -/
theorem cumulativeStandardNormal_symmetry_fails_at_zero :
    cumulativeStandardNormal 0 + cumulativeStandardNormal (-0) ≠ 1 ∧
      erf (-0) ≠ -erf 0 ∧ cumulativeStandardNormal 0 ≠ 0.5 := by
  simp only [neg_zero, cumulativeStandardNormal_zero, erf_zero]
  norm_num

/-- C3: for every real `x`, `0 ≤ cumulativeStandardNormal x ≤ 1`; equivalently `erf x` lies in
`[-1, 1]`, that is the polynomial in `t = 1 / (1 + P |x|)` times `exp (-x²)` lies in `[0, 2]`. -/
theorem cumulativeStandardNormal_range (x : ℝ) :
    (0 ≤ cumulativeStandardNormal x ∧ cumulativeStandardNormal x ≤ 1) ∧
      (-1 ≤ erf x ∧ erf x ≤ 1) ∧
      (0 ≤ erfPoly (1 / (1 + P * |x|)) * Real.exp (-|x| * |x|) ∧
        erfPoly (1 / (1 + P * |x|)) * Real.exp (-|x| * |x|) ≤ 2) := by
  refine ⟨⟨(cumulativeStandardNormal_pos x).le, (cumulativeStandardNormal_lt_one x).le⟩,
    ⟨(erf_gt_neg_one x).le, (erf_lt_one x).le⟩, ?_, ?_⟩
  · exact (erfTail_pos (abs_nonneg x)).le
  · have := erfTail_le (abs_nonneg x)
    simp only [erfTail] at this
    linarith

/-- C7: the call and the put record hold exactly the closed-form expressions in
`d1`, `d2` and `N = cumulativeStandardNormal`. -/
theorem blackScholesOptionPricing_formulas (spot strike rate volatility T : ℝ) :
    d1 spot strike rate volatility T =
        (Real.log (spot / strike) + (rate + volatility ^ 2 / 2) * T) /
          (volatility * Real.sqrt T) ∧
      d2 spot strike rate volatility T =
        d1 spot strike rate volatility T - volatility * Real.sqrt T ∧
      (let N := cumulativeStandardNormal
       let D1 := d1 spot strike rate volatility T
       let D2 := d2 spot strike rate volatility T
       let call := blackScholesOptionPricing spot strike rate volatility T true
       let put := blackScholesOptionPricing spot strike rate volatility T false
       (call.premium = spot * N D1 - strike * Real.exp (-rate * T) * N D2 ∧
        call.delta = N D1 ∧
        call.gamma = N D1 / (spot * volatility * Real.sqrt T) ∧
        call.theta = -(spot * N D1 * volatility) / (2 * Real.sqrt T) -
          rate * strike * Real.exp (-rate * T) * N D2 ∧
        call.vega = spot * N D1 * Real.sqrt T ∧
        call.rho = strike * T * Real.exp (-rate * T) * N D2) ∧
       (put.premium = strike * Real.exp (-rate * T) * N (-D2) - spot * N (-D1) ∧
        put.delta = N D1 - 1 ∧
        put.gamma = N D1 / (spot * volatility * Real.sqrt T) ∧
        put.theta = -(spot * N D1 * volatility) / (2 * Real.sqrt T) +
          rate * strike * Real.exp (-rate * T) * N (-D2) ∧
        put.vega = spot * N D1 * Real.sqrt T ∧
        put.rho = -strike * T * Real.exp (-rate * T) * N (-D2))) := by
  refine ⟨?_, rfl, ?_⟩
  · simp only [d1, pow_two]
  · exact ⟨⟨rfl, rfl, rfl, rfl, rfl, rfl⟩, ⟨rfl, rfl, rfl, rfl, rfl, rfl⟩⟩

/-- C8: for `numPaths = n > 0` and draws `z 0, ..., z (n - 1)` handed out by the generator,
`monteCarloOptionPricing` returns the discounted sample mean
`exp (-rate T) * (1 / n) * ∑ payoff (spot * exp ((rate - volatility² / 2) T +
volatility * sqrt T * z i))`, with `payoff s = max (s - strike) 0` for a call and
`max (strike - s) 0` for a put. -/
theorem monteCarloOptionPricing_discounted_mean (spot strike rate volatility T : ℝ)
    (n : ℕ) (_hn : 0 < n) (isCall : Bool) (z : ℕ → ℝ) :
    (monteCarloOptionPricing spot strike rate volatility T (n : ℤ) isCall z).1 =
      Real.exp (-rate * T) * (1 / (n : ℝ)) *
        ∑ i in Finset.range n,
          (fun s : ℝ => if isCall then max (s - strike) 0 else max (strike - s) 0)
            (spot * Real.exp ((rate - volatility ^ 2 / 2) * T +
              volatility * Real.sqrt T * z i)) := by
  simp only [monteCarloOptionPricing]
  rw [simulationLoop_eq spot strike rate volatility T n isCall n 0 0 z (by simp)]
  simp only [zero_add, Int.cast_natCast, simulatedPayoff, terminalPrice, callOptionPayoff,
    putOptionPayoff]
  have harg : ∀ w : ℝ, (rate - 0.5 * volatility * volatility) * T +
      volatility * Real.sqrt T * w =
      (rate - volatility ^ 2 / 2) * T + volatility * Real.sqrt T * w := by
    intro w; ring
  simp only [harg]
  ring

/-- Witness for C8: one path, the parameters of `main`, a generator that hands out `0`. -/
theorem monteCarloOptionPricing_discounted_mean_witness :
    0 < 1 ∧
      (monteCarloOptionPricing 100 100 0.05 0.2 1 ((1 : ℕ) : ℤ) true (fun _ => 0)).1 =
        Real.exp (-0.05 * 1) * (1 / ((1 : ℕ) : ℝ)) *
          ∑ i in Finset.range 1,
            (fun s : ℝ => if true then max (s - 100) 0 else max (100 - s) 0)
              (100 * Real.exp ((0.05 - 0.2 ^ 2 / 2) * 1 +
                0.2 * Real.sqrt 1 * (fun _ : ℕ => (0 : ℝ)) i)) :=
  ⟨Nat.one_pos,
    monteCarloOptionPricing_discounted_mean 100 100 0.05 0.2 1 1 Nat.one_pos true (fun _ => 0)⟩

/-- C10: for spot = 100, strike = 100, rate = 0.05, volatility = 0.2 and T = 1 the call premium
is within 0.01 of 10.45 and the put premium within 0.01 of 5.57. -/
theorem blackScholesOptionPricing_literal_scenario :
    |(blackScholesOptionPricing 100 100 0.05 0.2 1 true).premium - 10.45| ≤ 0.01 ∧
      |(blackScholesOptionPricing 100 100 0.05 0.2 1 false).premium - 5.57| ≤ 0.01 := by
  have hN1 := cumulativeStandardNormal_035
  have hN2 := cumulativeStandardNormal_015
  have hE := exp_neg_005
  have hm1 := cumulativeStandardNormal_add_neg (show (0.35 : ℝ) ≠ 0 by norm_num)
  have hm2 := cumulativeStandardNormal_add_neg (show (0.15 : ℝ) ≠ 0 by norm_num)
  have hlo : 0.951229 * 0.559616 ≤
      Real.exp (-0.05 * 1) * cumulativeStandardNormal 0.15 :=
    mul_le_mul hE.1 hN2.1 (by norm_num) (le_trans (by norm_num) hE.1)
  have hhi : Real.exp (-0.05 * 1) * cumulativeStandardNormal 0.15 ≤
      0.951230 * 0.559620 :=
    mul_le_mul hE.2 hN2.2 (le_trans (by norm_num) hN2.1) (by norm_num)
  simp only [blackScholesOptionPricing, if_true, Bool.false_eq_true, if_false, d1_main,
    d2_main]
  rw [abs_le, abs_le]
  have e1 : cumulativeStandardNormal (-0.35) = 1 - cumulativeStandardNormal 0.35 := by
    linarith
  have e2 : cumulativeStandardNormal (-0.15) = 1 - cumulativeStandardNormal 0.15 := by
    linarith
  rw [e1, e2]
  refine ⟨⟨?_, ?_⟩, ?_, ?_⟩ <;> nlinarith [hlo, hhi, hN1.1, hN1.2, hE.1, hE.2]

/-- C11: `cumulativeStandardNormal 0` is within `1e-6` of `0.5`, and for every real `x` in
`[-10, 10]` the sum `cumulativeStandardNormal x + cumulativeStandardNormal (-x)` is within
`1e-6` of `1`. -/
theorem cumulativeStandardNormal_symmetry_approx (x : ℝ) (_hlo : -10 ≤ x) (_hhi : x ≤ 10) :
    |cumulativeStandardNormal 0 - 0.5| ≤ 0.000001 ∧
      |cumulativeStandardNormal x + cumulativeStandardNormal (-x) - 1| ≤ 0.000001 := by
  constructor
  · rw [cumulativeStandardNormal_zero, abs_le]
    constructor <;> norm_num
  · by_cases hx : x = 0
    · subst hx
      rw [cumulativeStandardNormal_add_neg_zero, abs_le]
      constructor <;> norm_num
    · rw [cumulativeStandardNormal_add_neg hx]
      norm_num

/-- Witness for C11 at `x = 0`, the one point where the sum is not exactly `1`. -/
theorem cumulativeStandardNormal_symmetry_approx_witness :
    ((-10 : ℝ) ≤ 0 ∧ (0 : ℝ) ≤ 10) ∧
      |cumulativeStandardNormal 0 + cumulativeStandardNormal (-0) - 1| ≤ 0.000001 :=
  ⟨⟨by norm_num, by norm_num⟩,
    (cumulativeStandardNormal_symmetry_approx 0 (by norm_num) (by norm_num)).2⟩

/-- C14: for every input the field `intrinsic_value` is non-negative and equals
`max (spot - strike) 0` for a call and `max (strike - spot) 0` for a put. -/
theorem blackScholesOptionPricing_intrinsic_value (spot strike rate volatility T : ℝ) :
    (0 ≤ (blackScholesOptionPricing spot strike rate volatility T true).intrinsic_value ∧
      (blackScholesOptionPricing spot strike rate volatility T true).intrinsic_value =
        max (spot - strike) 0) ∧
    (0 ≤ (blackScholesOptionPricing spot strike rate volatility T false).intrinsic_value ∧
      (blackScholesOptionPricing spot strike rate volatility T false).intrinsic_value =
        max (strike - spot) 0) :=
  ⟨⟨le_max_right _ _, rfl⟩, ⟨le_max_right _ _, rfl⟩⟩

/-- C15: the call and the put record computed from the same inputs have the same gamma, the
same vega and the same dte, and `call.delta - put.delta = 1`. -/
theorem blackScholesOptionPricing_shared_greeks (spot strike rate volatility T : ℝ) :
    (blackScholesOptionPricing spot strike rate volatility T true).gamma =
        (blackScholesOptionPricing spot strike rate volatility T false).gamma ∧
      (blackScholesOptionPricing spot strike rate volatility T true).vega =
        (blackScholesOptionPricing spot strike rate volatility T false).vega ∧
      (blackScholesOptionPricing spot strike rate volatility T true).dte =
        (blackScholesOptionPricing spot strike rate volatility T false).dte ∧
      (blackScholesOptionPricing spot strike rate volatility T true).delta -
        (blackScholesOptionPricing spot strike rate volatility T false).delta = 1 := by
  refine ⟨rfl, rfl, rfl, ?_⟩
  simp only [blackScholesOptionPricing, if_true, Bool.false_eq_true, if_false]
  ring

/-- C20: the analytic pricer is positively homogeneous of degree 1 in `(spot, strike)`: scaling
both by `lam > 0` multiplies premium and intrinsic value by `lam` and leaves delta and dte
unchanged, for call and put. -/
theorem blackScholesOptionPricing_homogeneous (spot strike rate volatility T lam : ℝ)
    (_hs : 0 < spot) (_hk : 0 < strike) (_hv : 0 < volatility) (_hT : 0 < T) (hlam : 0 < lam)
    (isCall : Bool) :
    (blackScholesOptionPricing (lam * spot) (lam * strike) rate volatility T isCall).premium =
        lam * (blackScholesOptionPricing spot strike rate volatility T isCall).premium ∧
      (blackScholesOptionPricing (lam * spot) (lam * strike) rate volatility T
          isCall).intrinsic_value =
        lam * (blackScholesOptionPricing spot strike rate volatility T isCall).intrinsic_value ∧
      (blackScholesOptionPricing (lam * spot) (lam * strike) rate volatility T isCall).delta =
        (blackScholesOptionPricing spot strike rate volatility T isCall).delta ∧
      (blackScholesOptionPricing (lam * spot) (lam * strike) rate volatility T isCall).dte =
        (blackScholesOptionPricing spot strike rate volatility T isCall).dte := by
  have hd1 : d1 (lam * spot) (lam * strike) rate volatility T =
      d1 spot strike rate volatility T := by
    simp only [d1, mul_div_mul_left _ _ hlam.ne']
  have hd2 : d2 (lam * spot) (lam * strike) rate volatility T =
      d2 spot strike rate volatility T := by
    simp only [d2, hd1]
  have hmax : ∀ a b : ℝ, max (lam * a - lam * b) 0 = lam * max (a - b) 0 := by
    intro a b
    rw [mul_max_of_nonneg _ _ hlam.le, mul_zero, mul_sub]
  cases isCall
  · simp only [blackScholesOptionPricing, Bool.false_eq_true, if_false, hd1, hd2, hmax]
    refine ⟨by ring, trivial, trivial, trivial⟩
  · simp only [blackScholesOptionPricing, if_true, hd1, hd2, hmax]
    refine ⟨by ring, trivial, trivial, trivial⟩

/-- Witness for C20: the parameters of `main` scaled by `lam = 2`, call side. -/
theorem blackScholesOptionPricing_homogeneous_witness :
    ((0 : ℝ) < 100 ∧ (0 : ℝ) < 0.2 ∧ (0 : ℝ) < 1 ∧ (0 : ℝ) < 2) ∧
      (blackScholesOptionPricing (2 * 100) (2 * 100) 0.05 0.2 1 true).premium =
        2 * (blackScholesOptionPricing 100 100 0.05 0.2 1 true).premium :=
  ⟨⟨by norm_num, by norm_num, by norm_num, by norm_num⟩,
    (blackScholesOptionPricing_homogeneous 100 100 0.05 0.2 1 2 (by norm_num) (by norm_num)
      (by norm_num) (by norm_num) (by norm_num) true).1⟩

/-- C19: for `numPaths = n > 0` and the same draws `z 0, ..., z (n - 1)` used for both runs,
the call estimate minus the put estimate is
`exp (-rate T) * ((1 / n) * ∑ S_T (z i) - strike)` with
`S_T z = spot * exp ((rate - volatility² / 2) T + volatility * sqrt T * z)`. -/
theorem monteCarloOptionPricing_parity (spot strike rate volatility T : ℝ) (n : ℕ)
    (hn : 0 < n) (z : ℕ → ℝ) :
    (monteCarloOptionPricing spot strike rate volatility T (n : ℤ) true z).1 -
        (monteCarloOptionPricing spot strike rate volatility T (n : ℤ) false z).1 =
      Real.exp (-rate * T) *
        ((1 / (n : ℝ)) *
            ∑ i in Finset.range n,
              spot * Real.exp ((rate - volatility ^ 2 / 2) * T +
                volatility * Real.sqrt T * z i) -
          strike) := by
  have hn' : (n : ℝ) ≠ 0 := by exact_mod_cast hn.ne'
  rw [monteCarloOptionPricing_fst, monteCarloOptionPricing_fst, ← mul_sub, ← sub_div,
    ← Finset.sum_sub_distrib]
  simp only [simulatedPayoff_call_sub_put, terminalPrice_eq]
  rw [Finset.sum_sub_distrib, Finset.sum_const, Finset.card_range, nsmul_eq_mul]
  congr 1
  field_simp

/-- Witness for C19: two paths at the parameters of `main`, a generator that hands out `0`. -/
theorem monteCarloOptionPricing_parity_witness :
    0 < 2 ∧
      (monteCarloOptionPricing 100 100 0.05 0.2 1 ((2 : ℕ) : ℤ) true (fun _ => 0)).1 -
          (monteCarloOptionPricing 100 100 0.05 0.2 1 ((2 : ℕ) : ℤ) false (fun _ => 0)).1 =
        Real.exp (-0.05 * 1) *
          ((1 / ((2 : ℕ) : ℝ)) *
              ∑ i in Finset.range 2,
                100 * Real.exp ((0.05 - 0.2 ^ 2 / 2) * 1 +
                  0.2 * Real.sqrt 1 * (fun _ : ℕ => (0 : ℝ)) i) -
            100) :=
  ⟨by norm_num, monteCarloOptionPricing_parity 100 100 0.05 0.2 1 2 (by norm_num) (fun _ => 0)⟩

/-- C12 (amended): `blackScholesOptionPricing` validates nothing and has no failure path: for
every input, whether or not `spot`, `strike`, `volatility` and `timeToMaturity` are positive, the
call returns a pricing record and does not fail with `InvalidInput`. -/
theorem blackScholesOptionPricing_never_fails (spot strike rate volatility T : ℝ)
    (isCall : Bool) :
    blackScholesOptionPricingOutcome spot strike rate volatility T isCall ≠
        Except.error PricingError.InvalidInput ∧
      ∃ record : Contract,
        blackScholesOptionPricingOutcome spot strike rate volatility T isCall =
          Except.ok record := by
  refine ⟨?_, _, rfl⟩
  intro h
  cases h

/-- C12 (counterexample): for spot = 0, for strike = -5, for volatility = 0 and for T = 0, the
other parameters being those of `main`, a precondition is violated and yet the call does not
fail with `InvalidInput`. -/
theorem blackScholesOptionPricing_invalid_input_not_rejected :
    (((0 : ℝ) ≤ 0 ∧
        blackScholesOptionPricingOutcome 0 100 0.05 0.2 1 true ≠
          Except.error PricingError.InvalidInput) ∧
      ((-5 : ℝ) ≤ 0 ∧
        blackScholesOptionPricingOutcome 100 (-5) 0.05 0.2 1 true ≠
          Except.error PricingError.InvalidInput)) ∧
    (((0 : ℝ) ≤ 0 ∧
        blackScholesOptionPricingOutcome 100 100 0.05 0 1 true ≠
          Except.error PricingError.InvalidInput) ∧
      ((0 : ℝ) ≤ 0 ∧
        blackScholesOptionPricingOutcome 100 100 0.05 0.2 0 true ≠
          Except.error PricingError.InvalidInput)) := by
  refine ⟨⟨⟨le_refl _, ?_⟩, ⟨by norm_num, ?_⟩⟩, ⟨le_refl _, ?_⟩, ⟨le_refl _, ?_⟩⟩ <;>
    · intro h
      cases h

/-- C13 (amended): for `numberOfSimulations ≤ 0` the call of `monteCarloOptionPricing` does not
fail with `InvalidInput`: the loop body is never executed, no draw is consumed, the sum of
payoffs stays `0`, and for `numberOfSimulations < 0` the returned price is `0`. -/
theorem monteCarloOptionPricing_nonpositive_paths (spot strike rate volatility T : ℝ)
    (n : ℤ) (hn : n ≤ 0) (isCall : Bool) (rng : ℕ → ℝ) :
    monteCarloOptionPricingOutcome spot strike rate volatility T n isCall rng ≠
        Except.error PricingError.InvalidInput ∧
      simulationLoop spot strike rate volatility T n isCall 0 0 rng = (0, rng) ∧
      (monteCarloOptionPricing spot strike rate volatility T n isCall rng).2 = rng ∧
      (n < 0 → (monteCarloOptionPricing spot strike rate volatility T n isCall rng).1 = 0) := by
  have hloop := simulationLoop_of_nonpos spot strike rate volatility T hn isCall rng
  refine ⟨?_, hloop, ?_, ?_⟩
  · intro h
    cases h
  · simp only [monteCarloOptionPricing, hloop]
  · intro _
    simp only [monteCarloOptionPricing, hloop, zero_div, mul_zero]

/-- Witness for C13 (amended): `numberOfSimulations = -1` at the parameters of `main`. -/
theorem monteCarloOptionPricing_nonpositive_paths_witness :
    (-1 : ℤ) ≤ 0 ∧
      (monteCarloOptionPricing 100 100 0.05 0.2 1 (-1) true (fun _ => 0)).1 = 0 :=
  ⟨by decide,
    (monteCarloOptionPricing_nonpositive_paths 100 100 0.05 0.2 1 (-1) (by decide) true
      (fun _ => 0)).2.2.2 (by decide)⟩

/-- C13 (counterexample): with `numberOfSimulations = 0` at the parameters of `main` the call
does not fail with `InvalidInput`; it returns without having consumed a draw. -/
theorem monteCarloOptionPricing_zero_paths_not_rejected :
    (0 : ℤ) ≤ 0 ∧
      monteCarloOptionPricingOutcome 100 100 0.05 0.2 1 0 true (fun _ => 0) ≠
        Except.error PricingError.InvalidInput ∧
      simulationLoop 100 100 0.05 0.2 1 0 true 0 0 (fun _ => 0) = (0, fun _ => 0) := by
  refine ⟨le_refl _, ?_, simulationLoop_of_nonpos 100 100 0.05 0.2 1 (le_refl _) true _⟩
  intro h
  cases h

/-- C1 (amended): for every valid input the parity gap `call.premium - put.premium` is within
`1e-6 * max spot (strike * exp (-rate T))` of `spot - strike * exp (-rate T)`, a tolerance
relative to the larger of the two discounted prices; it is within
`1e-6 * |spot - strike * exp (-rate T)|`, as the claim has it, whenever that difference is at
least one hundredth of the larger price. -/
theorem blackScholesOptionPricing_put_call_parity (spot strike rate volatility T : ℝ)
    (hs : 0 < spot) (hk : 0 < strike) (hv : 0 < volatility) (hT : 0 < T) :
    |((blackScholesOptionPricing spot strike rate volatility T true).premium -
          (blackScholesOptionPricing spot strike rate volatility T false).premium) -
        (spot - strike * Real.exp (-rate * T))| ≤
      0.000001 * max spot (strike * Real.exp (-rate * T)) ∧
    (0.01 * max spot (strike * Real.exp (-rate * T)) ≤ |spot - strike * Real.exp (-rate * T)| →
      |((blackScholesOptionPricing spot strike rate volatility T true).premium -
            (blackScholesOptionPricing spot strike rate volatility T false).premium) -
          (spot - strike * Real.exp (-rate * T))| ≤
        0.000001 * |spot - strike * Real.exp (-rate * T)|) := by
  have h := abs_premium_gap_le (r := rate) hs hk hv hT
  have hm : 0 < max spot (strike * Real.exp (-rate * T)) := lt_of_lt_of_le hs (le_max_left _ _)
  constructor
  · linarith
  · intro hf
    linarith

/-- Witness for C1 (amended) at the parameters of `main`, where the difference
`100 - 100 * exp (-0.05)` exceeds one hundredth of `100` and the tolerance of the claim holds. -/
theorem blackScholesOptionPricing_put_call_parity_witness :
    ((0 : ℝ) < 100 ∧ (0 : ℝ) < 0.2 ∧ (0 : ℝ) < 1) ∧
      |((blackScholesOptionPricing 100 100 0.05 0.2 1 true).premium -
            (blackScholesOptionPricing 100 100 0.05 0.2 1 false).premium) -
          (100 - 100 * Real.exp (-0.05 * 1))| ≤
        0.000001 * |100 - 100 * Real.exp (-0.05 * 1)| := by
  have hE := exp_neg_005
  refine ⟨⟨by norm_num, by norm_num, by norm_num⟩,
    (blackScholesOptionPricing_put_call_parity 100 100 0.05 0.2 1 (by norm_num) (by norm_num)
      (by norm_num) (by norm_num)).2 ?_⟩
  rw [max_eq_left (by linarith [hE.2]), abs_of_nonneg (by linarith [hE.2])]
  linarith [hE.2]

/-- C1 (counterexample): for spot = strike = 1, volatility = 2⁻⁷, rate = -2⁻¹⁵ and T = 1
(so that `d1 = 0`) the parity gap is `1e-9`, more than `1e-6` times
`|spot - strike * exp (-rate T)|`. -/
theorem blackScholesOptionPricing_put_call_parity_fails :
    ¬ (|((blackScholesOptionPricing 1 1 (-0.000030517578125) 0.0078125 1 true).premium -
            (blackScholesOptionPricing 1 1 (-0.000030517578125) 0.0078125 1 false).premium) -
          (1 - 1 * Real.exp (-(-0.000030517578125) * 1))| ≤
        0.000001 * |1 - 1 * Real.exp (-(-0.000030517578125) * 1)|) := by
  have hd1 : d1 1 1 (-0.000030517578125) 0.0078125 1 = 0 := by
    simp only [d1, div_one, Real.log_one, Real.sqrt_one]
    norm_num
  have hd2 : d2 1 1 (-0.000030517578125) 0.0078125 1 ≠ 0 := by
    simp only [d2, hd1, Real.sqrt_one]
    norm_num
  have hx : -(-0.000030517578125 : ℝ) * 1 = 0.000030517578125 := by norm_num
  have hE1 : 1 ≤ Real.exp (0.000030517578125 : ℝ) := Real.one_le_exp (by norm_num)
  have hE2 : Real.exp (0.000030517578125 : ℝ) ≤ 1 / (1 - 0.000030517578125) :=
    Real.exp_bound_div_one_sub_of_interval (by norm_num) (by norm_num)
  have hE3 : (1 : ℝ) / (1 - 0.000030517578125) < 1.001 := by norm_num
  rw [premium_sub_premium, hd1, cumulativeStandardNormal_add_neg_zero,
    cumulativeStandardNormal_add_neg hd2, hx]
  rw [show (1 : ℝ) * (1 + 0.000000001) - 1 * Real.exp 0.000030517578125 * 1 -
      (1 - 1 * Real.exp 0.000030517578125) = 0.000000001 by ring,
    abs_of_pos (by norm_num), abs_of_nonpos (by linarith)]
  intro h
  linarith

/-- C5 (amended): the field `implied_volatility` does not echo the input. For every input it
holds the expression of the source, `volatility - (premium - (premium - 0.01)) / vega` for a
call and `volatility - ((premium - 0.01) - premium) / vega` for a put, with the premium and the
vega of the same record: the input moved by about `0.01 / vega`, down for a call and up for a
put. At the parameters of `main` the call record holds a value in `[0.199842, 0.199844]` and
the put record a value in `[0.200156, 0.200158]`. -/
theorem blackScholesOptionPricing_implied_volatility (spot strike rate volatility T : ℝ) :
    (blackScholesOptionPricing spot strike rate volatility T true).implied_volatility =
        volatility -
          ((blackScholesOptionPricing spot strike rate volatility T true).premium -
              ((blackScholesOptionPricing spot strike rate volatility T true).premium - 0.01)) /
            (blackScholesOptionPricing spot strike rate volatility T true).vega ∧
      (blackScholesOptionPricing spot strike rate volatility T false).implied_volatility =
        volatility -
          (((blackScholesOptionPricing spot strike rate volatility T false).premium - 0.01) -
              (blackScholesOptionPricing spot strike rate volatility T false).premium) /
            (blackScholesOptionPricing spot strike rate volatility T false).vega ∧
      (0.199842 ≤ (blackScholesOptionPricing 100 100 0.05 0.2 1 true).implied_volatility ∧
        (blackScholesOptionPricing 100 100 0.05 0.2 1 true).implied_volatility ≤ 0.199844) ∧
      (0.200156 ≤ (blackScholesOptionPricing 100 100 0.05 0.2 1 false).implied_volatility ∧
        (blackScholesOptionPricing 100 100 0.05 0.2 1 false).implied_volatility ≤ 0.200158) := by
  refine ⟨rfl, rfl, ?_, ?_⟩
  · have hN := cumulativeStandardNormal_035
    have hv : 0 < 100 * cumulativeStandardNormal 0.35 * 1 := by linarith [hN.1]
    have h1 : 0.000156 ≤ 0.01 / (100 * cumulativeStandardNormal 0.35 * 1) := by
      rw [le_div_iff₀ hv]
      linarith [hN.2]
    have h2 : 0.01 / (100 * cumulativeStandardNormal 0.35 * 1) ≤ 0.000158 := by
      rw [div_le_iff₀ hv]
      linarith [hN.1]
    simp only [blackScholesOptionPricing, if_true, d1_main, Real.sqrt_one]
    rw [show ∀ a : ℝ, a - (a - 0.01) = 0.01 from fun a => by ring]
    constructor <;> linarith
  · have hN := cumulativeStandardNormal_035
    have hv : 0 < 100 * cumulativeStandardNormal 0.35 * 1 := by linarith [hN.1]
    have h1 : 0.000156 ≤ 0.01 / (100 * cumulativeStandardNormal 0.35 * 1) := by
      rw [le_div_iff₀ hv]
      linarith [hN.2]
    have h2 : 0.01 / (100 * cumulativeStandardNormal 0.35 * 1) ≤ 0.000158 := by
      rw [div_le_iff₀ hv]
      linarith [hN.1]
    simp only [blackScholesOptionPricing, Bool.false_eq_true, if_false, d1_main, Real.sqrt_one]
    rw [show ∀ a : ℝ, a - 0.01 - a = -0.01 from fun a => by ring, neg_div]
    constructor <;> linarith

/-- C5 (counterexample): at the parameters of `main` neither the call nor the put record
echoes the input volatility `0.2`. -/
theorem blackScholesOptionPricing_implied_volatility_not_echo :
    (blackScholesOptionPricing 100 100 0.05 0.2 1 true).implied_volatility ≠ 0.2 ∧
      (blackScholesOptionPricing 100 100 0.05 0.2 1 false).implied_volatility ≠ 0.2 := by
  have hN := cumulativeStandardNormal_pos (d1 100 100 0.05 0.2 1)
  have hvega : 0 < 100 * cumulativeStandardNormal (d1 100 100 0.05 0.2 1) * Real.sqrt 1 := by
    rw [Real.sqrt_one]; linarith
  have hq : 0 < 0.01 / (100 * cumulativeStandardNormal (d1 100 100 0.05 0.2 1) *
      Real.sqrt 1) := div_pos (by norm_num) hvega
  simp only [blackScholesOptionPricing, if_true, Bool.false_eq_true, if_false]
  constructor
  · rw [show ∀ a : ℝ, a - (a - 0.01) = 0.01 from fun a => by ring]
    intro h
    linarith
  · rw [show ∀ a : ℝ, a - 0.01 - a = -0.01 from fun a => by ring, neg_div]
    intro h
    linarith

/-- C6 (amended): for every `timeToMaturity > 0` whose binary64 product with `365.2425` is
below `2 ^ 31`, the field `dte` is that product with its fractional part discarded (its floor,
not the nearest integer), for both call and put; the product is the one the program computes,
within `1e-15` (relative) of the exact `timeToMaturity * 365.2425`. -/
theorem blackScholesOptionPricing_dte (spot strike rate volatility T : ℝ) (hT : 0 < T)
    (hfit : roundDouble (T * roundDouble 365.2425) < 2147483648) :
    (blackScholesOptionPricing spot strike rate volatility T true).dte =
        some ⌊roundDouble (T * roundDouble 365.2425)⌋ ∧
      (blackScholesOptionPricing spot strike rate volatility T false).dte =
        some ⌊roundDouble (T * roundDouble 365.2425)⌋ ∧
      |roundDouble (T * roundDouble 365.2425) - T * 365.2425| ≤
        T * 365.2425 * 0.000000000000001 := by
  have hc : 0 ≤ roundDouble 365.2425 := roundDouble_nonneg (by norm_num)
  have h0 : 0 ≤ roundDouble (T * roundDouble 365.2425) :=
    roundDouble_nonneg (mul_nonneg hT.le hc)
  have h := truncateToInt_of_nonneg h0 hfit
  refine ⟨?_, ?_, abs_dayCount_sub_le hT.le⟩
  · simp only [blackScholesOptionPricing, if_true, h]
  · simp only [blackScholesOptionPricing, Bool.false_eq_true, if_false, h]

/-- Witness for C6 (amended): for `timeToMaturity` the binary64 quotient `5.0 / 365.2425` the
binary64 product is exactly `5` and the field is `5`, although the exact product of that
quotient and `365.2425` lies below `5`. -/
theorem blackScholesOptionPricing_dte_witness :
    (0 < roundDouble (5 / roundDouble 365.2425) ∧
        roundDouble (roundDouble (5 / roundDouble 365.2425) * roundDouble 365.2425) <
          2147483648) ∧
      (blackScholesOptionPricing 100 100 0.05 0.2 (roundDouble (5 / roundDouble 365.2425))
        true).dte = some 5 ∧
      ⌊roundDouble (5 / roundDouble 365.2425) * (365.2425 : ℝ)⌋ = 4 := by
  have hpos : 0 < roundDouble (5 / roundDouble 365.2425) := by
    rw [roundDouble_five_days]
    norm_num
  have hfit : roundDouble (roundDouble (5 / roundDouble 365.2425) * roundDouble 365.2425) <
      2147483648 := by
    rw [dayCount_five_days.1]
    norm_num
  refine ⟨⟨hpos, hfit⟩, ?_, dayCount_five_days.2⟩
  rw [(blackScholesOptionPricing_dte 100 100 0.05 0.2 _ hpos hfit).1, dayCount_five_days.1]
  norm_num

/-- C6 (counterexample): for `timeToMaturity = 0.5` the product is `182.62125`; the code
stores `182` while rounding to the nearest integer gives `183`. -/
theorem blackScholesOptionPricing_dte_not_round :
    (blackScholesOptionPricing 100 100 0.05 0.2 0.5 true).dte = some 182 ∧
      (blackScholesOptionPricing 100 100 0.05 0.2 0.5 false).dte = some 182 ∧
      round ((0.5 : ℝ) * 365.2425) = 183 ∧
      (blackScholesOptionPricing 100 100 0.05 0.2 0.5 true).dte ≠
        some (round ((0.5 : ℝ) * 365.2425)) := by
  have h0 : (0 : ℝ) ≤ 6425414011327611 / 35184372088832 := by norm_num
  have h1 : (6425414011327611 / 35184372088832 : ℝ) < 2147483648 := by norm_num
  have hf : ⌊(6425414011327611 / 35184372088832 : ℝ)⌋ = 182 := by
    rw [Int.floor_eq_iff]; constructor <;> norm_num
  have hr : round ((0.5 : ℝ) * 365.2425) = 183 := by
    rw [round_eq, Int.floor_eq_iff]; constructor <;> norm_num
  have h := truncateToInt_of_nonneg h0 h1
  simp only [blackScholesOptionPricing, if_true, Bool.false_eq_true, if_false,
    dayCount_half_year, h, hf, hr]
  decide

/-- C9 (amended): at the money (`spot = strike > 0`), with `volatility > 0`, `T > 0` and any
rate, the call delta lies in `[0, 1]` and the put delta in `[-1, 0]`, the end points included.
This holds of the binary64 evaluation and of the exact one; in binary64 the end points are
attained. -/
theorem blackScholesOptionPricing_delta_atm (spot rate volatility T : ℝ)
    (_hs : 0 < spot) (_hv : 0 < volatility) (_hT : 0 < T) :
    ((0 ≤ (Binary64.blackScholesOptionPricing spot spot rate volatility T true).delta ∧
        (Binary64.blackScholesOptionPricing spot spot rate volatility T true).delta ≤ 1) ∧
      (-1 ≤ (Binary64.blackScholesOptionPricing spot spot rate volatility T false).delta ∧
        (Binary64.blackScholesOptionPricing spot spot rate volatility T false).delta ≤ 0)) ∧
    ((0 ≤ (blackScholesOptionPricing spot spot rate volatility T true).delta ∧
        (blackScholesOptionPricing spot spot rate volatility T true).delta ≤ 1) ∧
      (-1 ≤ (blackScholesOptionPricing spot spot rate volatility T false).delta ∧
        (blackScholesOptionPricing spot spot rate volatility T false).delta ≤ 0)) := by
  have hb := Binary64.cumulativeStandardNormal_mem_unit
    (Binary64.d1 spot spot rate volatility T)
  have h0 := cumulativeStandardNormal_pos (d1 spot spot rate volatility T)
  have h1 := cumulativeStandardNormal_lt_one (d1 spot spot rate volatility T)
  constructor
  · simp only [Binary64.blackScholesOptionPricing, if_true, Bool.false_eq_true, if_false]
    exact ⟨hb, neg_one_le_roundDouble (by linarith [hb.1]),
      roundDouble_nonpos (by linarith [hb.2])⟩
  · simp only [blackScholesOptionPricing, if_true, Bool.false_eq_true, if_false]
    exact ⟨⟨h0.le, h1.le⟩, by linarith, by linarith⟩

/-- Witness for C9 (amended) at the parameters of `main`: spot = strike = 100, rate 0.05,
volatility 0.2, one year, the two decimal fractions as binary64 constants. -/
theorem blackScholesOptionPricing_delta_atm_witness :
    ((0 : ℝ) < 100 ∧ 0 < roundDouble 0.2 ∧ (0 : ℝ) < 1) ∧
      (0 ≤ (Binary64.blackScholesOptionPricing 100 100 (roundDouble 0.05) (roundDouble 0.2) 1
          true).delta ∧
        (Binary64.blackScholesOptionPricing 100 100 (roundDouble 0.05) (roundDouble 0.2) 1
          true).delta ≤ 1) ∧
      (-1 ≤ (Binary64.blackScholesOptionPricing 100 100 (roundDouble 0.05) (roundDouble 0.2) 1
          false).delta ∧
        (Binary64.blackScholesOptionPricing 100 100 (roundDouble 0.05) (roundDouble 0.2) 1
          false).delta ≤ 0) :=
  ⟨⟨by norm_num, Binary64.roundDouble_pos (by norm_num), by norm_num⟩,
    (blackScholesOptionPricing_delta_atm 100 (roundDouble 0.05) (roundDouble 0.2) 1
      (by norm_num) (Binary64.roundDouble_pos (by norm_num)) (by norm_num)).1⟩

/-- C9 (counterexample): in binary64, at spot = strike = 100, volatility 0.01 and T = 1, the
strict bounds fail at both ends. With rate 0.10, where `d1` is about `10.005`, the call delta
is exactly `1` and the put delta exactly `0`; with rate -0.10, where `d1` is about `-9.995`,
the call delta is exactly `0` and the put delta exactly `-1`. -/
theorem blackScholesOptionPricing_delta_atm_saturates :
    ((0 : ℝ) < 100 ∧ 0 < roundDouble 0.01 ∧ (0 : ℝ) < 1) ∧
      ((Binary64.blackScholesOptionPricing 100 100 (roundDouble 0.10) (roundDouble 0.01) 1
          true).delta = 1 ∧
        (Binary64.blackScholesOptionPricing 100 100 (roundDouble 0.10) (roundDouble 0.01) 1
          false).delta = 0) ∧
      ((Binary64.blackScholesOptionPricing 100 100 (roundDouble (-0.10)) (roundDouble 0.01) 1
          true).delta = 0 ∧
        (Binary64.blackScholesOptionPricing 100 100 (roundDouble (-0.10)) (roundDouble 0.01) 1
          false).delta = -1) ∧
      ¬ ((0 < (Binary64.blackScholesOptionPricing 100 100 (roundDouble 0.10) (roundDouble 0.01)
              1 true).delta ∧
            (Binary64.blackScholesOptionPricing 100 100 (roundDouble 0.10) (roundDouble 0.01)
              1 true).delta < 1) ∧
          (-1 < (Binary64.blackScholesOptionPricing 100 100 (roundDouble 0.10)
              (roundDouble 0.01) 1 false).delta ∧
            (Binary64.blackScholesOptionPricing 100 100 (roundDouble 0.10) (roundDouble 0.01)
              1 false).delta < 0)) := by
  have h := Binary64.delta_atm_saturated
  refine ⟨⟨by norm_num, Binary64.roundDouble_pos (by norm_num), by norm_num⟩, h,
    Binary64.delta_atm_saturated_low, ?_⟩
  rw [h.1, h.2]
  norm_num

/-- C17 (amended): under the preconditions the divisors `strike`, `volatility * sqrt T`,
`spot * volatility * sqrt T`, `2 * sqrt T` and `1 + P * |value|` (inside `erf`, for every
`value`) are not zero and the argument `spot / strike` of `log` is positive, in the binary64
evaluation (underflow apart: the binary64 reading has none) and in the exact one. The vega by
which `implied_volatility` divides is only non-negative, as `cumulativeStandardNormal d1` is:
in binary64 both can be `0`. -/
theorem blackScholesOptionPricing_divisors_nonzero (spot strike rate volatility T : ℝ)
    (hs : 0 < spot) (hk : 0 < strike) (hv : 0 < volatility) (hT : 0 < T) :
    (strike ≠ 0 ∧ roundDouble (volatility * Binary64.sqrt T) ≠ 0 ∧
      roundDouble (roundDouble (spot * volatility) * Binary64.sqrt T) ≠ 0 ∧
      roundDouble (2 * Binary64.sqrt T) ≠ 0 ∧ 0 < roundDouble (spot / strike) ∧
      0 ≤ Binary64.cumulativeStandardNormal (Binary64.d1 spot strike rate volatility T) ∧
      0 ≤ (Binary64.blackScholesOptionPricing spot strike rate volatility T true).vega ∧
      0 ≤ (Binary64.blackScholesOptionPricing spot strike rate volatility T false).vega ∧
      ∀ value : ℝ, roundDouble (1 + roundDouble (Binary64.P * |value|)) ≠ 0) ∧
    (volatility * Real.sqrt T ≠ 0 ∧ spot * volatility * Real.sqrt T ≠ 0 ∧
      2 * Real.sqrt T ≠ 0 ∧ 0 < spot / strike ∧
      0 ≤ cumulativeStandardNormal (d1 spot strike rate volatility T) ∧
      0 ≤ (blackScholesOptionPricing spot strike rate volatility T true).vega ∧
      0 ≤ (blackScholesOptionPricing spot strike rate volatility T false).vega ∧
      ∀ value : ℝ, 1 + P * |value| ≠ 0) := by
  have hsq : 0 < Real.sqrt T := Real.sqrt_pos.mpr hT
  have hbsq : 0 < Binary64.sqrt T := Binary64.roundDouble_pos hsq
  have hbN := (Binary64.cumulativeStandardNormal_mem_unit
    (Binary64.d1 spot strike rate volatility T)).1
  have hbvega : 0 ≤ roundDouble (roundDouble (spot *
      Binary64.cumulativeStandardNormal (Binary64.d1 spot strike rate volatility T)) *
        Binary64.sqrt T) :=
    roundDouble_nonneg (mul_nonneg (roundDouble_nonneg (mul_nonneg hs.le hbN)) hbsq.le)
  have hN := cumulativeStandardNormal_pos (d1 spot strike rate volatility T)
  have hvega : 0 ≤ spot * cumulativeStandardNormal (d1 spot strike rate volatility T) *
      Real.sqrt T := (mul_pos (mul_pos hs hN) hsq).le
  refine ⟨⟨hk.ne', (Binary64.roundDouble_pos (mul_pos hv hbsq)).ne',
    (Binary64.roundDouble_pos (mul_pos (Binary64.roundDouble_pos (mul_pos hs hv)) hbsq)).ne',
    (Binary64.roundDouble_pos (mul_pos two_pos hbsq)).ne',
    Binary64.roundDouble_pos (div_pos hs hk), hbN, hbvega, hbvega, ?_⟩,
    (mul_pos hv hsq).ne', (mul_pos (mul_pos hs hv) hsq).ne', (mul_pos two_pos hsq).ne',
    div_pos hs hk, hN.le, hvega, hvega, ?_⟩
  · intro value
    have h1 : 0 ≤ roundDouble (Binary64.P * |value|) :=
      roundDouble_nonneg (mul_nonneg Binary64.P_nonneg (abs_nonneg value))
    have h2 := one_le_roundDouble (x := 1 + roundDouble (Binary64.P * |value|)) (by linarith)
    linarith
  · intro value
    have := mul_nonneg P_pos.le (abs_nonneg value)
    linarith

/-- Witness for C17 (amended) at the parameters of `main`, the decimal fractions as binary64
constants. -/
theorem blackScholesOptionPricing_divisors_nonzero_witness :
    ((0 : ℝ) < 100 ∧ 0 < roundDouble 0.2 ∧ (0 : ℝ) < 1) ∧
      0 ≤ (Binary64.blackScholesOptionPricing 100 100 (roundDouble 0.05) (roundDouble 0.2) 1
        true).vega ∧
      roundDouble (roundDouble 0.2 * Binary64.sqrt 1) ≠ 0 :=
  have h := blackScholesOptionPricing_divisors_nonzero 100 100 (roundDouble 0.05)
    (roundDouble 0.2) 1 (by norm_num) (by norm_num) (Binary64.roundDouble_pos (by norm_num))
    (by norm_num)
  ⟨⟨by norm_num, Binary64.roundDouble_pos (by norm_num), by norm_num⟩,
    h.1.2.2.2.2.2.2.1, h.1.2.1⟩

/-- C17 (counterexample): in binary64, at spot 100, strike 150, rate 0.05, volatility 0.04 and
T = 1, where `d1` is about `-8.87`, `cumulativeStandardNormal d1` is exactly `0` and so is the
vega of the call and of the put record: the divisor of `implied_volatility` is zero. -/
theorem blackScholesOptionPricing_vega_zero :
    ((0 : ℝ) < 100 ∧ (0 : ℝ) < 150 ∧ 0 < roundDouble 0.04 ∧ (0 : ℝ) < 1) ∧
      Binary64.cumulativeStandardNormal
        (Binary64.d1 100 150 (roundDouble 0.05) (roundDouble 0.04) 1) = 0 ∧
      (Binary64.blackScholesOptionPricing 100 150 (roundDouble 0.05) (roundDouble 0.04) 1
        true).vega = 0 ∧
      (Binary64.blackScholesOptionPricing 100 150 (roundDouble 0.05) (roundDouble 0.04) 1
        false).vega = 0 ∧
      ¬ (0 < (Binary64.blackScholesOptionPricing 100 150 (roundDouble 0.05) (roundDouble 0.04)
        1 true).vega) := by
  have h := Binary64.vega_out_of_the_money_zero
  refine ⟨⟨by norm_num, by norm_num, Binary64.roundDouble_pos (by norm_num), by norm_num⟩,
    h.1, h.2.1, h.2.2, ?_⟩
  rw [h.2.1]
  exact lt_irrefl 0

end OptionsPricing
